import Mathlib

/-!
# policies_gen: identifier casing and the template data builder

A shallow embedding of `pkg/policies_gen/main.go` and the properties of its
casing functions (`snakeToCamelCase`, `dashToCamelCase`, `capitalize`,
`unCapitalize`), of `isActionInGroup` and of `convertConfigToTemplateData`.

Modelling conventions.

* A Go `string` is held as the sequence of its runes, `List Char`: the strings
  of a configuration come out of the YAML decoder and are valid UTF-8, so
  `[]rune(s)` and `string(r)` are inverse to each other on them.
* A run-time panic (`r[0]` on an empty rune slice) is the value `none`.
* A Go `map` is held as the list of its entries; the order of the list is the
  order in which one `range` loop visits the entries, which Go leaves
  unspecified. Properties are proved for every order.
* `unicode.ToUpper` and `unicode.ToLower` follow the Go standard library: an
  explicit ASCII branch, and a table lookup above `unicode.MaxASCII`. The tables
  are data of the standard library and are taken as a parameter `T`.
-/

namespace PoliciesGen

/-- A Go string as its sequence of runes. -/
abbrev GoString := List Char

/-- The case tables of Go's `unicode` package, used for runes above
`unicode.MaxASCII` only: `upper r` stands for `unicode.To(unicode.UpperCase, r)`
and `lower r` for `unicode.To(unicode.LowerCase, r)`. -/
structure CaseTables where
  upper : Char → Char
  lower : Char → Char

/-- The tables under which no rune above `unicode.MaxASCII` has a case. -/
def asciiOnlyTables : CaseTables := ⟨fun r => r, fun r => r⟩

/-- Go's `unicode.ToUpper`: below `MaxASCII` the letters `a`..`z` move down by
`'a' - 'A'`, every other ASCII rune is kept; above it the table decides. -/
def unicodeToUpper (T : CaseTables) (r : Char) : Char :=
  if r.toNat ≤ 0x7F then
    if 'a'.toNat ≤ r.toNat ∧ r.toNat ≤ 'z'.toNat then
      Char.ofNat (r.toNat - ('a'.toNat - 'A'.toNat))
    else r
  else T.upper r

/-- Go's `unicode.ToLower`: below `MaxASCII` the letters `A`..`Z` move up by
`'a' - 'A'`, every other ASCII rune is kept; above it the table decides. -/
def unicodeToLower (T : CaseTables) (r : Char) : Char :=
  if r.toNat ≤ 0x7F then
    if 'A'.toNat ≤ r.toNat ∧ r.toNat ≤ 'Z'.toNat then
      Char.ofNat (r.toNat + ('a'.toNat - 'A'.toNat))
    else r
  else T.lower r

/-- Go's `strings.ToUpper`: every rune mapped through `unicode.ToUpper`. -/
def stringsToUpper (T : CaseTables) (s : GoString) : GoString :=
  s.map (unicodeToUpper T)

/-- The call `strings.Replace(s, "_", "", -1)`: every underscore removed. -/
def removeUnderscores (s : GoString) : GoString :=
  s.filter (fun c => c != '_')

/-- The call `strings.ReplaceAll(str, "-", "_")`: every dash becomes an
underscore. -/
def dashesToUnderscores (str : GoString) : GoString :=
  str.map (fun c => if c = '-' then '_' else c)

/-- The character class `[A-Za-z]` of the regular expression `link`. -/
def isLinkLetter (c : Char) : Bool :=
  ('A'.toNat ≤ c.toNat && c.toNat ≤ 'Z'.toNat) || ('a'.toNat ≤ c.toNat && c.toNat ≤ 'z'.toNat)

/-- The call `link.ReplaceAllStringFunc(str, repl)` for
`link = (^[A-Za-z])|_([A-Za-z])`: the text is scanned from the left, every
leftmost non-overlapping match is replaced by `repl` of the matched text, and
all other runes are copied. `atStart` tells whether the scan stands at the
beginning of the text, the only place where `^` matches. -/
def linkReplaceAllStringFunc (repl : GoString → GoString) : Bool → GoString → GoString
  | _, [] => []
  | atStart, [c] => if atStart && isLinkLetter c then repl [c] else [c]
  | atStart, c :: d :: rest =>
    if atStart && isLinkLetter c then
      repl [c] ++ linkReplaceAllStringFunc repl false (d :: rest)
    else if c = '_' && isLinkLetter d then
      repl [c, d] ++ linkReplaceAllStringFunc repl false rest
    else
      c :: linkReplaceAllStringFunc repl false (d :: rest)

/-- The function literal of `snakeToCamelCase`,
`func(s string) string { return strings.ToUpper(strings.Replace(s, "_", "", -1)) }`. -/
def upperWithoutUnderscores (T : CaseTables) (s : GoString) : GoString :=
  stringsToUpper T (removeUnderscores s)

/-- Source `snakeToCamelCase`: every match of `link` is replaced by its text
with the underscores removed and upper-cased. -/
def snakeToCamelCase (T : CaseTables) (str : GoString) : GoString :=
  linkReplaceAllStringFunc (upperWithoutUnderscores T) true str

/-- Source `dashToCamelCase`. -/
def dashToCamelCase (T : CaseTables) (str : GoString) : GoString :=
  snakeToCamelCase T (dashesToUnderscores str)

/-- Source `capitalize`: `r[0] = unicode.ToUpper(r[0])`, a panic on the empty
string. -/
def capitalize (T : CaseTables) (s : GoString) : Option GoString :=
  match s with
  | [] => none
  | r0 :: r => some (unicodeToUpper T r0 :: r)

/-- Source `unCapitalize`: `r[0] = unicode.ToLower(r[0])`, a panic on the empty
string. -/
def unCapitalize (T : CaseTables) (s : GoString) : Option GoString :=
  match s with
  | [] => none
  | r0 :: r => some (unicodeToLower T r0 :: r)

/-- Source `namePolicies`; the field `Type` is spelled `Type_`. -/
structure namePolicies where
  Private : GoString
  Public : GoString
  Type_ : GoString
deriving DecidableEq, Repr

/-- Source `policiesConfig`; the two maps are lists of entries. -/
structure policiesConfig where
  FileName : GoString
  Output : GoString
  Template : GoString
  Package : GoString
  Groups : List (GoString × List GoString)
  ResourceConfig : List (GoString × List GoString)

/-- Source `templateDataGenerate`; the two maps are lists of entries. -/
structure templateDataGenerate where
  Groups : List (namePolicies × List namePolicies)
  Resources : List (namePolicies × List namePolicies)
  Package : GoString
deriving DecidableEq, Repr

/-- The assignment `m[k] = v` on a map: the entry of `k` is replaced when there
is one, and added otherwise. -/
def mapAssign (m : List (namePolicies × List namePolicies)) (k : namePolicies)
    (v : List namePolicies) : List (namePolicies × List namePolicies) :=
  match m with
  | [] => [(k, v)]
  | (k0, v0) :: rest => if k0 = k then (k, v) :: rest else (k0, v0) :: mapAssign rest k v

/-- The read `m[k]` on a map. -/
def mapIndex (m : List (namePolicies × List namePolicies)) (k : namePolicies) :
    Option (List namePolicies) :=
  match m with
  | [] => none
  | (k0, v0) :: rest => if k0 = k then some v0 else mapIndex rest k

/-- The composite literal the source writes four times,
`namePolicies{Private: unCapitalize(snakeToCamelCase(x)), Public: capitalize(dashToCamelCase(x))}`;
`Type` keeps its zero value, the empty string. -/
def newNamePolicies (T : CaseTables) (x : GoString) : Option namePolicies := do
  let priv ← unCapitalize T (snakeToCamelCase T x)
  let pub ← capitalize T (dashToCamelCase T x)
  pure ⟨priv, pub, []⟩

/-- Source `isActionInGroup`: the keys of `group` are visited in turn, the
member lists are ignored. -/
def isActionInGroup (T : CaseTables) (str : GoString) :
    List (GoString × List GoString) → Option Bool
  | [] => some false
  | (key, _) :: rest => do
    let a ← capitalize T (dashToCamelCase T str)
    let k ← capitalize T (dashToCamelCase T key)
    if a = k then pure true else isActionInGroup T str rest

/-- The inner loop of the `group actions` block: `nameActions` grows by one
`namePolicies` per action, in the order of the list. -/
def groupNameActions (T : CaseTables) (nameActions : List namePolicies) :
    List GoString → Option (List namePolicies)
  | [] => some nameActions
  | action :: rest => do
    let kn ← newNamePolicies T action
    groupNameActions T (nameActions ++ [kn]) rest

/-- The inner loop of the `resource actions` block: as for a group, and `Type`
is set to `"string"` when `isActionInGroup` is false. -/
def resourceNameActions (T : CaseTables) (groups : List (GoString × List GoString))
    (nameActions : List namePolicies) : List GoString → Option (List namePolicies)
  | [] => some nameActions
  | action :: rest => do
    let kn ← newNamePolicies T action
    let inGroup ← isActionInGroup T action groups
    let kn := if !inGroup then { kn with Type_ := "string".toList } else kn
    resourceNameActions T groups (nameActions ++ [kn]) rest

/-- The loop `for key, actions := range cfg.Groups`, started from the map
`out`. -/
def groupsLoop (T : CaseTables) (out : List (namePolicies × List namePolicies)) :
    List (GoString × List GoString) → Option (List (namePolicies × List namePolicies))
  | [] => some out
  | (key, actions) :: rest => do
    let nameActions ← groupNameActions T [] actions
    let keyName ← newNamePolicies T key
    groupsLoop T (mapAssign out keyName nameActions) rest

/-- The loop `for key, actions := range cfg.ResourceConfig`, started from the
map `out`. -/
def resourcesLoop (T : CaseTables) (groups : List (GoString × List GoString))
    (out : List (namePolicies × List namePolicies)) :
    List (GoString × List GoString) → Option (List (namePolicies × List namePolicies))
  | [] => some out
  | (key, actions) :: rest => do
    let nameActions ← resourceNameActions T groups [] actions
    let keyName ← newNamePolicies T key
    resourcesLoop T groups (mapAssign out keyName nameActions) rest

/-- Source `convertConfigToTemplateData`. -/
def convertConfigToTemplateData (T : CaseTables) (cfg : policiesConfig) :
    Option templateDataGenerate := do
  let groups ← groupsLoop T [] cfg.Groups
  let resources ← resourcesLoop T cfg.Groups [] cfg.ResourceConfig
  pure ⟨groups, resources, cfg.Package⟩

/-- The separators of a name: the dash and the underscore. -/
def isSeparator (c : Char) : Bool :=
  c = '-' || c = '_'

/-- The upper-case letters `A`..`Z`. -/
def isAsciiUpper (c : Char) : Bool :=
  'A'.toNat ≤ c.toNat && c.toNat ≤ 'Z'.toNat

/-- The lower-case letters `a`..`z`. -/
def isAsciiLower (c : Char) : Bool :=
  'a'.toNat ≤ c.toNat && c.toNat ≤ 'z'.toNat

/-- The public form of a name as the source builds it,
`capitalize(dashToCamelCase(s))`; the specification calls it `toUpperCamel`. -/
def toUpperCamel (T : CaseTables) (s : GoString) : Option GoString :=
  capitalize T (dashToCamelCase T s)

/-- The private form of a name as the source builds it,
`unCapitalize(snakeToCamelCase(s))`; the specification calls it
`toLowerCamel`. -/
def toLowerCamel (T : CaseTables) (s : GoString) : Option GoString :=
  unCapitalize T (snakeToCamelCase T s)

/-- Whether a text begins with a letter. -/
def startsWithLetter (s : GoString) : Bool :=
  match s with
  | [] => false
  | c :: _ => isLinkLetter c

/-- Whether the rune before the current one makes a letter case-adjusted in the
scan of the specification: there is none (the letter is the first character), or
it is a separator. -/
def afterSeparatorOrStart (prev : Option Char) : Bool :=
  match prev with
  | none => true
  | some p => isSeparator p

/-- The scan the specification describes for `toUpperCamel`, written from its
words, with `prev` the rune before the current one: a separator immediately
followed by a letter is removed; a letter that is the first character, or that
follows a separator, is upper-cased; every other rune is left unchanged. A
letter is a letter of the class `[A-Za-z]`. -/
def specUpperCamelFrom (T : CaseTables) (prev : Option Char) : GoString → GoString
  | [] => []
  | c :: rest =>
    (if isSeparator c && startsWithLetter rest then []
     else if isLinkLetter c && afterSeparatorOrStart prev then [unicodeToUpper T c]
     else [c]) ++ specUpperCamelFrom T (some c) rest

/-- The scan of the specification over a whole name. -/
def specUpperCamel (T : CaseTables) (s : GoString) : GoString :=
  specUpperCamelFrom T none s

/-- Every key and every action of one section of the configuration is a name
that is not empty. -/
def sectionNamesNonEmpty (m : List (GoString × List GoString)) : Prop :=
  ∀ e ∈ m, e.1 ≠ [] ∧ ∀ a ∈ e.2, a ≠ []

instance (m : List (GoString × List GoString)) : Decidable (sectionNamesNonEmpty m) :=
  inferInstanceAs (Decidable (∀ e ∈ m, e.1 ≠ [] ∧ ∀ a ∈ e.2, a ≠ []))

/-- Every group key, group action, resource key and resource action of the
configuration is a name that is not empty. -/
def configNamesNonEmpty (cfg : policiesConfig) : Prop :=
  sectionNamesNonEmpty cfg.Groups ∧ sectionNamesNonEmpty cfg.ResourceConfig

instance (cfg : policiesConfig) : Decidable (configNamesNonEmpty cfg) :=
  inferInstanceAs (Decidable (_ ∧ _))

/-- Some key of `groups` has the same public form as the name `a`. -/
def matchesGroupKey (T : CaseTables) (a : GoString)
    (groups : List (GoString × List GoString)) : Prop :=
  ∃ e ∈ groups, toUpperCamel T e.1 = toUpperCamel T a

instance (T : CaseTables) (a : GoString) (groups : List (GoString × List GoString)) :
    Decidable (matchesGroupKey T a groups) :=
  inferInstanceAs (Decidable (∃ e ∈ groups, toUpperCamel T e.1 = toUpperCamel T a))

/-- The value `p` is what the `resource actions` block builds from the action
`a`: the composite literal of `a`, with `Type` set to `"string"` when
`isActionInGroup` is false. -/
def builtFromResourceAction (T : CaseTables) (groups : List (GoString × List GoString))
    (a : GoString) (p : namePolicies) : Prop :=
  ∃ q b, newNamePolicies T a = some q ∧ isActionInGroup T a groups = some b ∧
    p = if !b then { q with Type_ := "string".toList } else q

/-- The two loops of `convertConfigToTemplateData` over a section, with the
inner loop as a parameter `inner`. -/
def sectionLoop (T : CaseTables) (inner : List GoString → Option (List namePolicies))
    (out : List (namePolicies × List namePolicies)) :
    List (GoString × List GoString) → Option (List (namePolicies × List namePolicies))
  | [] => some out
  | (key, actions) :: rest => do
    let nameActions ← inner actions
    let keyName ← newNamePolicies T key
    sectionLoop T inner (mapAssign out keyName nameActions) rest

/-- The configuration of the first scenario of the specification: the group
`read` with the members `get` and `list`, the resource `book` with the actions
`get`, `list` and `publish`. -/
def scenarioOne : policiesConfig where
  FileName := "policies".toList
  Output := "out".toList
  Template := "template_policies.tmpl".toList
  Package := "policies".toList
  Groups := [("read".toList, ["get".toList, "list".toList])]
  ResourceConfig := [("book".toList, ["get".toList, "list".toList, "publish".toList])]

/-- The pair the builder makes of the resource key `book`. -/
def bookPair : namePolicies :=
  ⟨"book".toList, "Book".toList, []⟩

/-- Every separator of the name is immediately followed by a letter of the class
`[A-Za-z]`. -/
def separatorsBeforeLetters : GoString → Bool
  | [] => true
  | c :: rest => (!isSeparator c || startsWithLetter rest) && separatorsBeforeLetters rest

/-- No rune above `unicode.MaxASCII` has a separator as its upper or lower case
in the tables. -/
def CaseTables.caseIsNoSeparator (T : CaseTables) : Prop :=
  ∀ r : Char, 0x7F < r.toNat → isSeparator (T.upper r) = false ∧ isSeparator (T.lower r) = false

/-- Go's `unicode.ToUpper` under the tables `T` maps its own values to
themselves. -/
def CaseTables.upperIdempotent (T : CaseTables) : Prop :=
  ∀ r : Char, unicodeToUpper T (unicodeToUpper T r) = unicodeToUpper T r

/-- Go's `unicode.ToLower` under the tables `T` maps its own values to
themselves. -/
def CaseTables.lowerIdempotent (T : CaseTables) : Prop :=
  ∀ r : Char, unicodeToLower T (unicodeToLower T r) = unicodeToLower T r

/-- The configuration of the third scenario of the specification: the resource
`book` lists the action `get` twice. -/
def scenarioThree : policiesConfig where
  FileName := "policies".toList
  Output := "out".toList
  Template := "template_policies.tmpl".toList
  Package := "policies".toList
  Groups := [("read".toList, ["get".toList, "list".toList])]
  ResourceConfig := [("book".toList, ["get".toList, "get".toList])]

/-- The runes `c` and `d` are the same letter of the class `[A-Za-z]`, in the
same or in different case. -/
def sameLetter (c d : Char) : Bool :=
  isLinkLetter c && isLinkLetter d &&
    (c.toNat == d.toNat || c.toNat == d.toNat + 32 || d.toNat == c.toNat + 32)

/-- The names `a` and `k` differ at most in the case of letters that stand first
or immediately after a separator; `prev` is the rune before the current one of
`a`. -/
def caseVariantFrom (prev : Option Char) : GoString → GoString → Bool
  | [], [] => true
  | c :: cs, d :: ds =>
    (c == d || (afterSeparatorOrStart prev && sameLetter c d)) && caseVariantFrom (some c) cs ds
  | _, _ => false

/-- The names `a` and `b` differ at most in that a separator of the one is the
other separator in the other. -/
def separatorVariant (a b : GoString) : Prop :=
  List.Forall₂ (fun c d => c = d ∨ (isSeparator c = true ∧ isSeparator d = true)) a b

/-- A configuration in which the resource `book` lists an empty action after
`get`. -/
def emptyActionConfig : policiesConfig where
  FileName := "policies".toList
  Output := "out".toList
  Template := "template_policies.tmpl".toList
  Package := "policies".toList
  Groups := [("read".toList, ["get".toList])]
  ResourceConfig := [("book".toList, ["get".toList, []])]

/-- A configuration without groups, whose only resource `book` has an empty
action list. -/
def emptyListsConfig : policiesConfig where
  FileName := "policies".toList
  Output := "out".toList
  Template := "template_policies.tmpl".toList
  Package := "policies".toList
  Groups := []
  ResourceConfig := [("book".toList, [])]

/-- What a run of `main` does to the outside, in the order it does it:
`readFile` is the call of `os.ReadFile` on the configuration, `createFile` a
call of `os.Create` that returned the output file (created, or truncated to
empty), `writeFile` the call of `f.Write`, `printSuccess` the final
`fmt.Println`. -/
inductive mainEffect where
  | readFile
  | createFile
  | writeFile
  | printSuccess
deriving DecidableEq, Repr

/-- How a run of `main` ends: `log.Fatal` on the argument check, `log.Fatal` on
an error of a later step, a panic, or the normal return. -/
inductive mainExit where
  | fatalInvalidArguments
  | fatal
  | panicked
  | success
deriving DecidableEq, Repr

/-- The outside of `main`: the argument vector `os.Args`, and what each call to
a library returns. `config` is the configuration `yaml.Unmarshal` decodes, or
`none` when it returns an error; `executeOk data` tells whether `tmpl.Execute`
returns without error on the data; the other fields tell whether the call of
their name returns without error (`templateOk`: whether `template.Must` returns
without a panic). -/
structure mainEnv where
  args : List GoString
  absOk : Bool
  readOk : Bool
  config : Option policiesConfig
  createOk : Bool
  templateOk : Bool
  executeOk : templateDataGenerate → Bool
  formatOk : Bool
  writeOk : Bool

/-- Source `main`, as the effects of the run and the way it ends. The steps
follow the source in its order: the argument check, `filepath.Abs`,
`os.ReadFile`, `yaml.Unmarshal`, `os.Create`, `convertConfigToTemplateData`,
`template.Must`, `tmpl.Execute`, `format.Source`, `f.Write`, `fmt.Println`. -/
def main (T : CaseTables) (env : mainEnv) : List mainEffect × mainExit :=
  if env.args.length ≠ 2 then ([], .fatalInvalidArguments)
  else if !env.absOk then ([], .fatal)
  else if !env.readOk then ([.readFile], .fatal)
  else
    match env.config with
    | none => ([.readFile], .fatal)
    | some config =>
      if !env.createOk then ([.readFile], .fatal)
      else
        match convertConfigToTemplateData T config with
        | none => ([.readFile, .createFile], .panicked)
        | some data =>
          if !env.templateOk then ([.readFile, .createFile], .panicked)
          else if !env.executeOk data then ([.readFile, .createFile], .fatal)
          else if !env.formatOk then ([.readFile, .createFile], .fatal)
          else if !env.writeOk then ([.readFile, .createFile, .writeFile], .fatal)
          else ([.readFile, .createFile, .writeFile, .printSuccess], .success)

/-- A run on the first scenario in which only `format.Source` returns an
error. -/
def formatFailureEnv : mainEnv where
  args := ["policies_gen".toList, "policies.yaml".toList]
  absOk := true
  readOk := true
  config := some scenarioOne
  createOk := true
  templateOk := true
  executeOk := fun _ => true
  formatOk := false
  writeOk := true

/-- A run with the argument vector `args` in which every call to a library
returns without error. -/
def allOkEnv (args : List GoString) : mainEnv where
  args := args
  absOk := true
  readOk := true
  config := some scenarioOne
  createOk := true
  templateOk := true
  executeOk := fun _ => true
  formatOk := true
  writeOk := true

/-- The name with every dash and every underscore deleted. -/
def deleteSeparators (s : GoString) : GoString :=
  s.filter (fun c => !isSeparator c)

/-- Go's `strings.ToLower`: every rune mapped through `unicode.ToLower`. -/
def stringsToLower (T : CaseTables) (s : GoString) : GoString :=
  s.map (unicodeToLower T)

/-- A configuration whose resource keys `book` and `Book` have the same pair. -/
def collidingKeysConfig : policiesConfig where
  FileName := "policies".toList
  Output := "out".toList
  Template := "template_policies.tmpl".toList
  Package := "policies".toList
  Groups := [("read".toList, ["get".toList])]
  ResourceConfig := [("book".toList, ["get".toList]), ("Book".toList, ["list".toList])]

/-! ## Runes -/

theorem toNat_ofNat_small (n : Nat) (h : n < 0xD800) : (Char.ofNat n).toNat = n := by
  have hv : n.isValidChar := Or.inl h
  simp only [Char.ofNat, hv, Char.toNat, Char.ofNatAux, dite_true]
  rfl

theorem char_eq_of_toNat {a b : Char} (h : a.toNat = b.toNat) : a = b := by
  rw [← Char.ofNat_toNat a, ← Char.ofNat_toNat b, h]

theorem eq_underscore_iff (c : Char) : c = '_' ↔ c.toNat = 95 := by
  constructor
  · rintro rfl; rfl
  · intro h; exact char_eq_of_toNat (by simpa using h)

theorem eq_dash_iff (c : Char) : c = '-' ↔ c.toNat = 45 := by
  constructor
  · rintro rfl; rfl
  · intro h; exact char_eq_of_toNat (by simpa using h)

theorem isLinkLetter_iff (c : Char) :
    isLinkLetter c = true ↔
      (65 ≤ c.toNat ∧ c.toNat ≤ 90) ∨ (97 ≤ c.toNat ∧ c.toNat ≤ 122) := by
  simp [isLinkLetter]

theorem isAsciiUpper_iff (c : Char) : isAsciiUpper c = true ↔ 65 ≤ c.toNat ∧ c.toNat ≤ 90 := by
  simp [isAsciiUpper]

theorem isAsciiLower_iff (c : Char) : isAsciiLower c = true ↔ 97 ≤ c.toNat ∧ c.toNat ≤ 122 := by
  simp [isAsciiLower]

theorem isSeparator_iff (c : Char) : isSeparator c = true ↔ c.toNat = 45 ∨ c.toNat = 95 := by
  simp [isSeparator, eq_underscore_iff, eq_dash_iff]

theorem toNat_unicodeToUpper_ascii (T : CaseTables) (r : Char) (h : r.toNat ≤ 0x7F) :
    (unicodeToUpper T r).toNat =
      if 97 ≤ r.toNat ∧ r.toNat ≤ 122 then r.toNat - 32 else r.toNat := by
  unfold unicodeToUpper
  simp only [h, if_true]
  split
  · rename_i hr
    rw [toNat_ofNat_small]
    · simp at hr ⊢; simp [hr]
    · simp; omega
  · rename_i hr
    have hr2 : ¬ (97 ≤ r.toNat ∧ r.toNat ≤ 122) := by simpa using hr
    rw [if_neg hr2]

theorem toNat_unicodeToLower_ascii (T : CaseTables) (r : Char) (h : r.toNat ≤ 0x7F) :
    (unicodeToLower T r).toNat =
      if 65 ≤ r.toNat ∧ r.toNat ≤ 90 then r.toNat + 32 else r.toNat := by
  unfold unicodeToLower
  simp only [h, if_true]
  split
  · rename_i hr
    rw [toNat_ofNat_small]
    · simp at hr ⊢; simp [hr]
    · simp; omega
  · rename_i hr
    have hr2 : ¬ (65 ≤ r.toNat ∧ r.toNat ≤ 90) := by simpa using hr
    rw [if_neg hr2]

theorem isSeparator_of_isLinkLetter {c : Char} (h : isLinkLetter c = true) :
    isSeparator c = false := by
  rw [isLinkLetter_iff] at h
  cases hs : isSeparator c with
  | false => rfl
  | true => rw [isSeparator_iff] at hs; omega

theorem ne_underscore_of_isLinkLetter {c : Char} (h : isLinkLetter c = true) : c ≠ '_' := by
  rw [isLinkLetter_iff] at h
  intro hc
  rw [eq_underscore_iff] at hc
  omega

theorem isSeparator_eq_underscore {c : Char} (h : c ≠ '-') :
    isSeparator c = true ↔ c = '_' := by
  simp [isSeparator, h]

/-! ## The scan of `link` -/

theorem upperWithoutUnderscores_letter (T : CaseTables) {c : Char}
    (h : isLinkLetter c = true) : upperWithoutUnderscores T [c] = [unicodeToUpper T c] := by
  simp [upperWithoutUnderscores, removeUnderscores, stringsToUpper,
    ne_underscore_of_isLinkLetter h]

theorem upperWithoutUnderscores_pair (T : CaseTables) {d : Char}
    (h : isLinkLetter d = true) :
    upperWithoutUnderscores T ['_', d] = [unicodeToUpper T d] := by
  simp [upperWithoutUnderscores, removeUnderscores, stringsToUpper,
    ne_underscore_of_isLinkLetter h]

/-- The scan at the start of the text, on a letter: the letter is upper-cased. -/
theorem scan_start_letter (T : CaseTables) {c : Char} (rest : GoString)
    (h : isLinkLetter c = true) :
    linkReplaceAllStringFunc (upperWithoutUnderscores T) true (c :: rest) =
      unicodeToUpper T c :: linkReplaceAllStringFunc (upperWithoutUnderscores T) false rest := by
  cases rest with
  | nil => simp [linkReplaceAllStringFunc, h, upperWithoutUnderscores_letter]
  | cons d rest => simp [linkReplaceAllStringFunc, h, upperWithoutUnderscores_letter]

/-- The scan on an underscore followed by a letter: the underscore goes and the
letter is upper-cased. -/
theorem scan_underscore_letter (T : CaseTables) (b : Bool) {d : Char} (rest : GoString)
    (h : isLinkLetter d = true) :
    linkReplaceAllStringFunc (upperWithoutUnderscores T) b ('_' :: d :: rest) =
      unicodeToUpper T d :: linkReplaceAllStringFunc (upperWithoutUnderscores T) false rest := by
  have hu : isLinkLetter '_' = false := by decide
  simp [linkReplaceAllStringFunc, h, hu, upperWithoutUnderscores_pair]

/-- The scan on any other rune: the rune is copied. -/
theorem scan_copy (T : CaseTables) (b : Bool) (c : Char) (rest : GoString)
    (h1 : ¬ (b = true ∧ isLinkLetter c = true))
    (h2 : ¬ (c = '_' ∧ startsWithLetter rest = true)) :
    linkReplaceAllStringFunc (upperWithoutUnderscores T) b (c :: rest) =
      c :: linkReplaceAllStringFunc (upperWithoutUnderscores T) false rest := by
  cases rest with
  | nil =>
    have h1b : (b && isLinkLetter c) = false := by
      cases b <;> cases hc : isLinkLetter c <;> simp_all
    simp [linkReplaceAllStringFunc, h1b]
  | cons d rest =>
    have h1b : (b && isLinkLetter c) = false := by
      cases b <;> cases hc : isLinkLetter c <;> simp_all
    have h2b : (decide (c = '_') && isLinkLetter d) = false := by
      cases hd : isLinkLetter d <;> simp_all [startsWithLetter]
    simp [linkReplaceAllStringFunc, h1b, h2b]

/-- On a text without dashes the scan of `link` and the scan of the
specification agree, at the start of the text and after any rune `p` that is not
a separator standing before a letter. -/
theorem scan_eq_spec (T : CaseTables) :
    ∀ (n : Nat) (l : GoString), l.length ≤ n → (∀ c ∈ l, c ≠ '-') →
      linkReplaceAllStringFunc (upperWithoutUnderscores T) true l
          = specUpperCamelFrom T none l ∧
      ∀ p : Char, (isSeparator p = true → startsWithLetter l = false) →
        linkReplaceAllStringFunc (upperWithoutUnderscores T) false l
          = specUpperCamelFrom T (some p) l := by
  intro n
  induction n with
  | zero =>
    intro l hl _
    have : l = [] := List.length_eq_zero.mp (Nat.le_zero.mp hl)
    subst this
    simp [linkReplaceAllStringFunc, specUpperCamelFrom]
  | succ n ih =>
    intro l hl hd
    cases l with
    | nil => simp [linkReplaceAllStringFunc, specUpperCamelFrom]
    | cons c rest =>
      have hc : c ≠ '-' := hd c (List.mem_cons_self _ _)
      have hrest : ∀ x ∈ rest, x ≠ '-' := fun x hx => hd x (List.mem_cons_of_mem _ hx)
      have hlen : rest.length ≤ n := by simpa using hl
      by_cases hA : c = '_' ∧ startsWithLetter rest = true
      · obtain ⟨rfl, hs⟩ := hA
        cases rest with
        | nil => simp [startsWithLetter] at hs
        | cons d rest2 =>
          have hdl : isLinkLetter d = true := by simpa [startsWithLetter] using hs
          have hlen2 : rest2.length ≤ n := by
            simp at hlen; omega
          have hrest2 : ∀ x ∈ rest2, x ≠ '-' := fun x hx => hrest x (List.mem_cons_of_mem _ hx)
          have ih2 := (ih rest2 hlen2 hrest2).2 d
            (fun h => by rw [isSeparator_of_isLinkLetter hdl] at h; cases h)
          have hsep : isSeparator '_' = true := by decide
          have key : ∀ prev, specUpperCamelFrom T prev ('_' :: d :: rest2)
              = unicodeToUpper T d :: specUpperCamelFrom T (some d) rest2 := by
            intro prev
            simp [specUpperCamelFrom, hsep, startsWithLetter, hdl,
              isSeparator_of_isLinkLetter hdl, afterSeparatorOrStart]
          refine ⟨?_, fun p _ => ?_⟩
          · rw [scan_underscore_letter T true rest2 hdl, key, ih2]
          · rw [scan_underscore_letter T false rest2 hdl, key, ih2]
      · have hsepc : (isSeparator c && startsWithLetter rest) = false := by
          cases hs : isSeparator c with
          | false => simp
          | true =>
            have hcu : c = '_' := (isSeparator_eq_underscore hc).mp hs
            cases hr : startsWithLetter rest with
            | false => simp
            | true => exact absurd ⟨hcu, hr⟩ hA
        have hnext : isSeparator c = true → startsWithLetter rest = false := by
          intro hs
          cases hr : startsWithLetter rest with
          | false => rfl
          | true => exact absurd ⟨(isSeparator_eq_underscore hc).mp hs, hr⟩ hA
        have ihc := (ih rest hlen hrest).2 c hnext
        refine ⟨?_, fun p hp => ?_⟩
        · cases hl : isLinkLetter c with
          | true =>
            rw [scan_start_letter T rest hl, ihc]
            simp [specUpperCamelFrom, hsepc, hl, afterSeparatorOrStart]
          | false =>
            rw [scan_copy T true c rest (by simp [hl]) hA, ihc]
            simp [specUpperCamelFrom, hsepc, hl]
        · have hcond : (isLinkLetter c && afterSeparatorOrStart (some p)) = false := by
            cases hs : isSeparator p with
            | false => simp [afterSeparatorOrStart, hs]
            | true =>
              have := hp hs
              simp [startsWithLetter] at this
              simp [this]
          rw [scan_copy T false c rest (by simp) hA, ihc]
          simp [specUpperCamelFrom, hsepc, hcond]

theorem dashesToUnderscores_no_dash (s : GoString) : ∀ c ∈ dashesToUnderscores s, c ≠ '-' := by
  intro c hc
  simp only [dashesToUnderscores, List.mem_map] at hc
  obtain ⟨a, _, rfl⟩ := hc
  by_cases h : a = '-'
  · simp [h]
  · simp [h]

/-- The function `dashToCamelCase` is the scan of the specification run on the
name with its dashes turned into underscores. -/
theorem dashToCamelCase_eq_spec (T : CaseTables) (s : GoString) :
    dashToCamelCase T s = specUpperCamel T (dashesToUnderscores s) :=
  (scan_eq_spec T _ _ (Nat.le_refl _) (dashesToUnderscores_no_dash s)).1

/-- The scan of `link` never empties a text that is not empty. -/
theorem scan_ne_nil (T : CaseTables) (b : Bool) (l : GoString) (h : l ≠ []) :
    linkReplaceAllStringFunc (upperWithoutUnderscores T) b l ≠ [] := by
  cases l with
  | nil => exact absurd rfl h
  | cons c rest =>
    by_cases hA : c = '_' ∧ startsWithLetter rest = true
    · obtain ⟨rfl, hs⟩ := hA
      cases rest with
      | nil => simp [startsWithLetter] at hs
      | cons d rest2 =>
        have hdl : isLinkLetter d = true := by simpa [startsWithLetter] using hs
        rw [scan_underscore_letter T b rest2 hdl]
        exact List.cons_ne_nil _ _
    · by_cases hB : b = true ∧ isLinkLetter c = true
      · obtain ⟨rfl, hl⟩ := hB
        rw [scan_start_letter T rest hl]
        exact List.cons_ne_nil _ _
      · rw [scan_copy T b c rest hB hA]
        exact List.cons_ne_nil _ _

theorem snakeToCamelCase_ne_nil (T : CaseTables) (s : GoString) (h : s ≠ []) :
    snakeToCamelCase T s ≠ [] :=
  scan_ne_nil T true s h

theorem dashesToUnderscores_ne_nil (s : GoString) (h : s ≠ []) :
    dashesToUnderscores s ≠ [] := by
  cases s with
  | nil => exact absurd rfl h
  | cons c rest => simp [dashesToUnderscores]

theorem dashToCamelCase_ne_nil (T : CaseTables) (s : GoString) (h : s ≠ []) :
    dashToCamelCase T s ≠ [] :=
  snakeToCamelCase_ne_nil T _ (dashesToUnderscores_ne_nil s h)

theorem capitalize_isSome (T : CaseTables) (s : GoString) (h : s ≠ []) :
    ∃ r, capitalize T s = some r := by
  cases s with
  | nil => exact absurd rfl h
  | cons c rest => exact ⟨_, rfl⟩

theorem unCapitalize_isSome (T : CaseTables) (s : GoString) (h : s ≠ []) :
    ∃ r, unCapitalize T s = some r := by
  cases s with
  | nil => exact absurd rfl h
  | cons c rest => exact ⟨_, rfl⟩

/-- The public form of a name that is not empty is built without a panic. -/
theorem toUpperCamel_isSome (T : CaseTables) (s : GoString) (h : s ≠ []) :
    ∃ r, toUpperCamel T s = some r :=
  capitalize_isSome T _ (dashToCamelCase_ne_nil T s h)

/-- The private form of a name that is not empty is built without a panic. -/
theorem toLowerCamel_isSome (T : CaseTables) (s : GoString) (h : s ≠ []) :
    ∃ r, toLowerCamel T s = some r :=
  unCapitalize_isSome T _ (snakeToCamelCase_ne_nil T s h)

/-! ## C1: the public form against the scan of the specification -/

/-- C1, counterexample: on the name `a-1` the source builds the public form
`A_1` (the dash, which no letter follows, has become an underscore), while the
scan of the specification leaves the dash unchanged and gives `A-1`. -/
theorem C1_counterexample :
    (∀ T : CaseTables, toUpperCamel T "a-1".toList = some "A_1".toList) ∧
    (∀ T : CaseTables, specUpperCamel T "a-1".toList = "A-1".toList) ∧
    (∀ T : CaseTables, toUpperCamel T "a-1".toList ≠ some (specUpperCamel T "a-1".toList)) := by
  refine ⟨fun T => rfl, fun T => rfl, fun T h => ?_⟩
  have h1 : toUpperCamel T "a-1".toList = some "A_1".toList := rfl
  have h2 : specUpperCamel T "a-1".toList = "A-1".toList := rfl
  rw [h1, h2] at h
  exact absurd h (by decide)

/-- C1, amended: for every name `s` that is not empty, the public form
`capitalize(dashToCamelCase(s))` is built without a panic and equals the scan
of the specification run on `s` with every dash first turned into an
underscore, its first rune then passed through `unicode.ToUpper`. So a separator
immediately followed by a letter `[A-Za-z]` is removed and the letter
upper-cased, a dash that no letter follows becomes an underscore, and every
other rune after the first is unchanged. -/
theorem C1_public_form_eq_spec_scan (T : CaseTables) (s : GoString) (hne : s ≠ []) :
    toUpperCamel T s = capitalize T (specUpperCamel T (dashesToUnderscores s)) ∧
    ∃ r, toUpperCamel T s = some r := by
  refine ⟨?_, toUpperCamel_isSome T s hne⟩
  unfold toUpperCamel
  rw [dashToCamelCase_eq_spec]

/-- C1, witness: the amended statement at the name `a-1`. -/
theorem C1_public_form_eq_spec_scan_witness :
    "a-1".toList ≠ [] ∧
    (toUpperCamel asciiOnlyTables "a-1".toList
        = capitalize asciiOnlyTables (specUpperCamel asciiOnlyTables
            (dashesToUnderscores "a-1".toList)) ∧
      ∃ r, toUpperCamel asciiOnlyTables "a-1".toList = some r) :=
  ⟨by decide, C1_public_form_eq_spec_scan asciiOnlyTables "a-1".toList (by decide)⟩

/-! ## The composite literal and `isActionInGroup` -/

/-- The composite literal of a name that is not empty: its private form, its
public form, and an empty `Type`. -/
theorem newNamePolicies_of_ne_nil (T : CaseTables) (s : GoString) (h : s ≠ []) :
    ∃ p, newNamePolicies T s = some p ∧ toLowerCamel T s = some p.Private ∧
      toUpperCamel T s = some p.Public ∧ p.Type_ = [] := by
  obtain ⟨l, hl⟩ := toLowerCamel_isSome T s h
  obtain ⟨u, hu⟩ := toUpperCamel_isSome T s h
  refine ⟨⟨l, u, []⟩, ?_, hl, hu, rfl⟩
  unfold toLowerCamel at hl
  unfold toUpperCamel at hu
  simp [newNamePolicies, hl, hu]

/-- On names that are not empty `isActionInGroup` returns, and returns true
exactly when some key of the groups has the public form of the action. -/
theorem isActionInGroup_iff (T : CaseTables) (a : GoString) (ha : a ≠ []) :
    ∀ groups : List (GoString × List GoString), (∀ e ∈ groups, e.1 ≠ []) →
      ∃ b, isActionInGroup T a groups = some b ∧ (b = true ↔ matchesGroupKey T a groups) := by
  intro groups
  induction groups with
  | nil => intro _; exact ⟨false, rfl, by simp [matchesGroupKey]⟩
  | cons e rest ih =>
    intro hk
    obtain ⟨key, acts⟩ := e
    have hkey : key ≠ [] := hk (key, acts) (List.mem_cons_self _ _)
    obtain ⟨b, hb, hiff⟩ := ih (fun e he => hk e (List.mem_cons_of_mem _ he))
    obtain ⟨ua, hua⟩ := toUpperCamel_isSome T a ha
    obtain ⟨uk, huk⟩ := toUpperCamel_isSome T key hkey
    have hua2 : capitalize T (dashToCamelCase T a) = some ua := hua
    have huk2 : capitalize T (dashToCamelCase T key) = some uk := huk
    by_cases heq : ua = uk
    · refine ⟨true, ?_, ?_⟩
      · simp [isActionInGroup, hua2, huk2, heq]
      · simp only [true_iff]
        exact ⟨(key, acts), List.mem_cons_self _ _, by rw [hua, huk, heq]⟩
    · refine ⟨b, ?_, ?_⟩
      · simp [isActionInGroup, hua2, huk2, heq, hb]
      · rw [hiff]
        constructor
        · rintro ⟨e, he, h⟩
          exact ⟨e, List.mem_cons_of_mem _ he, h⟩
        · rintro ⟨e, he, h⟩
          rcases List.mem_cons.mp he with rfl | he
          · exfalso
            apply heq
            have : some uk = some ua := by rw [← huk, ← hua]; exact h
            exact (Option.some.inj this).symm
          · exact ⟨e, he, h⟩

/-! ## The inner loops -/

theorem groupNameActions_spec (T : CaseTables) :
    ∀ (acts : List GoString) (acc : List namePolicies), (∀ a ∈ acts, a ≠ []) →
      ∃ l, groupNameActions T acc acts = some (acc ++ l) ∧
        List.Forall₂ (fun a p => newNamePolicies T a = some p) acts l := by
  intro acts
  induction acts with
  | nil => intro acc _; exact ⟨[], by simp [groupNameActions], List.Forall₂.nil⟩
  | cons a rest ih =>
    intro acc h
    obtain ⟨q, hq, _⟩ := newNamePolicies_of_ne_nil T a (h a (List.mem_cons_self _ _))
    obtain ⟨l, hl, hf⟩ := ih (acc ++ [q]) (fun x hx => h x (List.mem_cons_of_mem _ hx))
    refine ⟨q :: l, ?_, List.Forall₂.cons hq hf⟩
    simp [groupNameActions, hq, hl]

theorem resourceNameActions_spec (T : CaseTables) (groups : List (GoString × List GoString))
    (hg : ∀ e ∈ groups, e.1 ≠ []) :
    ∀ (acts : List GoString) (acc : List namePolicies), (∀ a ∈ acts, a ≠ []) →
      ∃ l, resourceNameActions T groups acc acts = some (acc ++ l) ∧
        List.Forall₂ (builtFromResourceAction T groups) acts l := by
  intro acts
  induction acts with
  | nil => intro acc _; exact ⟨[], by simp [resourceNameActions], List.Forall₂.nil⟩
  | cons a rest ih =>
    intro acc h
    have ha : a ≠ [] := h a (List.mem_cons_self _ _)
    obtain ⟨q, hq, _⟩ := newNamePolicies_of_ne_nil T a ha
    obtain ⟨b, hb, _⟩ := isActionInGroup_iff T a ha groups hg
    obtain ⟨l, hl, hf⟩ := ih (acc ++ [if !b then { q with Type_ := "string".toList } else q])
      (fun x hx => h x (List.mem_cons_of_mem _ hx))
    refine ⟨(if !b then { q with Type_ := "string".toList } else q) :: l, ?_,
      List.Forall₂.cons ⟨q, b, hq, hb, rfl⟩ hf⟩
    simp only [resourceNameActions, hq, hb, Option.bind_eq_bind, Option.some_bind]
    rw [hl]
    simp

/-! ## Maps and the loops over a section -/

theorem mem_mapAssign {m : List (namePolicies × List namePolicies)} {k : namePolicies}
    {v : List namePolicies} {x : namePolicies × List namePolicies}
    (h : x ∈ mapAssign m k v) : x ∈ m ∨ x = (k, v) := by
  induction m with
  | nil => simpa [mapAssign] using h
  | cons e rest ih =>
    obtain ⟨k0, v0⟩ := e
    unfold mapAssign at h
    split at h
    · rcases List.mem_cons.mp h with h | h
      · exact Or.inr h
      · exact Or.inl (List.mem_cons_of_mem _ h)
    · rcases List.mem_cons.mp h with h | h
      · exact Or.inl (h ▸ List.mem_cons_self _ _)
      · rcases ih h with h | h
        · exact Or.inl (List.mem_cons_of_mem _ h)
        · exact Or.inr h

theorem mapIndex_mapAssign_self (m : List (namePolicies × List namePolicies))
    (k : namePolicies) (v : List namePolicies) : mapIndex (mapAssign m k v) k = some v := by
  induction m with
  | nil => simp [mapAssign, mapIndex]
  | cons e rest ih =>
    obtain ⟨k0, v0⟩ := e
    by_cases h : k0 = k
    · simp [mapAssign, mapIndex, h]
    · simp [mapAssign, mapIndex, h, ih]

theorem mapIndex_mapAssign_ne (m : List (namePolicies × List namePolicies))
    {k k' : namePolicies} (v : List namePolicies) (hne : k ≠ k') :
    mapIndex (mapAssign m k v) k' = mapIndex m k' := by
  induction m with
  | nil => simp [mapAssign, mapIndex, hne]
  | cons e rest ih =>
    obtain ⟨k0, v0⟩ := e
    by_cases h : k0 = k
    · subst h
      simp [mapAssign, mapIndex, hne]
    · by_cases h2 : k0 = k'
      · subst h2
        simp [mapAssign, mapIndex, h]
      · simp [mapAssign, mapIndex, h, h2, ih]

theorem groupsLoop_eq_sectionLoop (T : CaseTables) :
    ∀ (entries : List (GoString × List GoString)) (out : List (namePolicies × List namePolicies)),
      groupsLoop T out entries = sectionLoop T (groupNameActions T []) out entries := by
  intro entries
  induction entries with
  | nil => intro out; rfl
  | cons e rest ih =>
    intro out
    obtain ⟨key, acts⟩ := e
    simp only [groupsLoop, sectionLoop, ih]

theorem resourcesLoop_eq_sectionLoop (T : CaseTables) (groups : List (GoString × List GoString)) :
    ∀ (entries : List (GoString × List GoString)) (out : List (namePolicies × List namePolicies)),
      resourcesLoop T groups out entries
        = sectionLoop T (resourceNameActions T groups []) out entries := by
  intro entries
  induction entries with
  | nil => intro out; rfl
  | cons e rest ih =>
    intro out
    obtain ⟨key, acts⟩ := e
    simp only [resourcesLoop, sectionLoop, ih]

/-- The loop over a section returns when every key is a name that is not empty
and the inner loop returns on every action list; every entry of the map it
returns was in the map it started from or was built from an entry of the
section. -/
theorem sectionLoop_spec (T : CaseTables) (inner : List GoString → Option (List namePolicies)) :
    ∀ (entries : List (GoString × List GoString)) (out : List (namePolicies × List namePolicies)),
      (∀ e ∈ entries, e.1 ≠ [] ∧ ∃ l, inner e.2 = some l) →
      ∃ res, sectionLoop T inner out entries = some res ∧
        ∀ x ∈ res, x ∈ out ∨
          ∃ e ∈ entries, newNamePolicies T e.1 = some x.1 ∧ inner e.2 = some x.2 := by
  intro entries
  induction entries with
  | nil => intro out _; exact ⟨out, rfl, fun x hx => Or.inl hx⟩
  | cons e rest ih =>
    intro out h
    obtain ⟨key, acts⟩ := e
    obtain ⟨hkey, l, hl⟩ := h (key, acts) (List.mem_cons_self _ _)
    obtain ⟨kn, hkn, _⟩ := newNamePolicies_of_ne_nil T key hkey
    obtain ⟨res, hres, hmem⟩ := ih (mapAssign out kn l)
      (fun e he => h e (List.mem_cons_of_mem _ he))
    refine ⟨res, ?_, fun x hx => ?_⟩
    · simp only [sectionLoop] at hl hkn ⊢
      simp only [hl, hkn, Option.bind_eq_bind, Option.some_bind]
      exact hres
    · rcases hmem x hx with h1 | ⟨e, he, h1, h2⟩
      · rcases mem_mapAssign h1 with h1 | h1
        · exact Or.inl h1
        · subst h1
          exact Or.inr ⟨(key, acts), List.mem_cons_self _ _, hkn, hl⟩
      · exact Or.inr ⟨e, List.mem_cons_of_mem _ he, h1, h2⟩

/-- The loop over a section keeps the list stored under `kn` when every entry
of the section whose key has the pair `kn` would store that same list. -/
theorem sectionLoop_index_keep (T : CaseTables)
    (inner : List GoString → Option (List namePolicies)) (kn : namePolicies)
    (l : List namePolicies) :
    ∀ (entries : List (GoString × List GoString))
      (out res : List (namePolicies × List namePolicies)),
      sectionLoop T inner out entries = some res →
      mapIndex out kn = some l →
      (∀ e ∈ entries, newNamePolicies T e.1 = some kn → inner e.2 = some l) →
      mapIndex res kn = some l := by
  intro entries
  induction entries with
  | nil =>
    intro out res h hidx _
    simp only [sectionLoop, Option.some.injEq] at h
    subst h
    exact hidx
  | cons e rest ih =>
    intro out res h hidx hsame
    obtain ⟨key, acts⟩ := e
    simp only [sectionLoop, Option.bind_eq_bind] at h
    cases hin : inner acts with
    | none => simp [hin] at h
    | some na =>
      cases hk : newNamePolicies T key with
      | none => simp [hin, hk] at h
      | some kn0 =>
        simp only [hin, hk, Option.some_bind] at h
        refine ih _ res h ?_ (fun e he => hsame e (List.mem_cons_of_mem _ he))
        by_cases heq : kn0 = kn
        · subst heq
          have := hsame (key, acts) (List.mem_cons_self _ _) hk
          rw [hin] at this
          cases this
          exact mapIndex_mapAssign_self _ _ _
        · rw [mapIndex_mapAssign_ne _ _ heq]
          exact hidx

/-- After the loop over a section, the list stored under the pair `kn` of an
entry is the list built from that entry, when every entry of the section whose
key has the pair `kn` would store that same list. -/
theorem sectionLoop_index (T : CaseTables)
    (inner : List GoString → Option (List namePolicies)) (kn : namePolicies)
    (l : List namePolicies) :
    ∀ (entries : List (GoString × List GoString))
      (out res : List (namePolicies × List namePolicies)),
      sectionLoop T inner out entries = some res →
      (∃ e ∈ entries, newNamePolicies T e.1 = some kn) →
      (∀ e ∈ entries, newNamePolicies T e.1 = some kn → inner e.2 = some l) →
      mapIndex res kn = some l := by
  intro entries
  induction entries with
  | nil =>
    intro out res _ hex _
    obtain ⟨e, he, _⟩ := hex
    cases he
  | cons e rest ih =>
    intro out res h hex hsame
    obtain ⟨key, acts⟩ := e
    have h0 := h
    simp only [sectionLoop, Option.bind_eq_bind] at h
    cases hin : inner acts with
    | none => simp [hin] at h
    | some na =>
      cases hk : newNamePolicies T key with
      | none => simp [hin, hk] at h
      | some kn0 =>
        simp only [hin, hk, Option.some_bind] at h
        by_cases heq : kn0 = kn
        · subst heq
          have := hsame (key, acts) (List.mem_cons_self _ _) hk
          rw [hin] at this
          cases this
          exact sectionLoop_index_keep T inner kn0 l rest _ res h
            (mapIndex_mapAssign_self _ _ _)
            (fun e he => hsame e (List.mem_cons_of_mem _ he))
        · obtain ⟨e, he, hek⟩ := hex
          rcases List.mem_cons.mp he with rfl | he
          · rw [hk] at hek
            exact absurd (Option.some.inj hek) heq
          · exact ih _ res h ⟨e, he, hek⟩ (fun e he => hsame e (List.mem_cons_of_mem _ he))

theorem newNamePolicies_nil (T : CaseTables) : newNamePolicies T [] = none := rfl

theorem ne_nil_of_newNamePolicies {T : CaseTables} {a : GoString} {q : namePolicies}
    (h : newNamePolicies T a = some q) : a ≠ [] := by
  rintro rfl
  rw [newNamePolicies_nil] at h
  cases h

/-- The `Type` of what the `resource actions` block builds from an action: empty
when some group key has the public form of the action, `"string"` when none
has. -/
theorem builtFromResourceAction_type (T : CaseTables)
    (groups : List (GoString × List GoString)) (hg : ∀ e ∈ groups, e.1 ≠ [])
    (a : GoString) (p : namePolicies) (h : builtFromResourceAction T groups a p) :
    (p.Type_ = "string".toList ↔ ¬ matchesGroupKey T a groups) ∧
    (p.Type_ = [] ↔ matchesGroupKey T a groups) := by
  obtain ⟨q, b, hq, hb, hp⟩ := h
  have ha := ne_nil_of_newNamePolicies hq
  obtain ⟨q2, hq2, _, _, hty⟩ := newNamePolicies_of_ne_nil T a ha
  obtain ⟨b2, hb2, hiff⟩ := isActionInGroup_iff T a ha groups hg
  rw [hq] at hq2
  cases hq2
  rw [hb] at hb2
  cases hb2
  cases b with
  | true =>
    have hm : matchesGroupKey T a groups := hiff.mp rfl
    have hpq : p = q := by simpa using hp
    subst hpq
    simp [hty, hm]
  | false =>
    have hm : ¬ matchesGroupKey T a groups := fun h => by simpa using hiff.mpr h
    have hpt : p.Type_ = "string".toList := by rw [hp]; rfl
    simp [hpt, hm]

/-- The builder returns on a configuration whose names are not empty, with the
two maps its loops build from the empty map. -/
theorem convert_of_namesNonEmpty (T : CaseTables) (cfg : policiesConfig)
    (hne : configNamesNonEmpty cfg) :
    ∃ g r, sectionLoop T (groupNameActions T []) [] cfg.Groups = some g ∧
      sectionLoop T (resourceNameActions T cfg.Groups []) [] cfg.ResourceConfig = some r ∧
      convertConfigToTemplateData T cfg = some ⟨g, r, cfg.Package⟩ := by
  obtain ⟨hG, hR⟩ := hne
  have hgk : ∀ e ∈ cfg.Groups, e.1 ≠ [] := fun e he => (hG e he).1
  obtain ⟨g, hg, _⟩ := sectionLoop_spec T (groupNameActions T []) cfg.Groups []
    (fun e he => ⟨(hG e he).1, by
      obtain ⟨l, hl, _⟩ := groupNameActions_spec T e.2 [] (hG e he).2
      exact ⟨_, hl⟩⟩)
  obtain ⟨r, hr, _⟩ := sectionLoop_spec T (resourceNameActions T cfg.Groups []) cfg.ResourceConfig []
    (fun e he => ⟨(hR e he).1, by
      obtain ⟨l, hl, _⟩ := resourceNameActions_spec T cfg.Groups hgk e.2 [] (hR e he).2
      exact ⟨_, hl⟩⟩)
  refine ⟨g, r, hg, hr, ?_⟩
  simp [convertConfigToTemplateData, groupsLoop_eq_sectionLoop, resourcesLoop_eq_sectionLoop,
    hg, hr]

/-- Every list stored in the output `Resources` is the list the inner loop
builds from the actions of some resource. -/
theorem convert_resources_mem (T : CaseTables) (cfg : policiesConfig)
    (hne : configNamesNonEmpty cfg) (out : templateDataGenerate)
    (hout : convertConfigToTemplateData T cfg = some out) :
    ∀ x ∈ out.Resources, ∃ e ∈ cfg.ResourceConfig,
      newNamePolicies T e.1 = some x.1 ∧
      resourceNameActions T cfg.Groups [] e.2 = some x.2 ∧
      List.Forall₂ (builtFromResourceAction T cfg.Groups) e.2 x.2 := by
  have hgk : ∀ e ∈ cfg.Groups, e.1 ≠ [] := fun e he => (hne.1 e he).1
  obtain ⟨g, r, _, hr, hout2⟩ := convert_of_namesNonEmpty T cfg hne
  rw [hout] at hout2
  cases hout2
  intro x hx
  obtain ⟨res, hres, hmem⟩ := sectionLoop_spec T (resourceNameActions T cfg.Groups [])
    cfg.ResourceConfig [] (fun e he => ⟨(hne.2 e he).1, by
      obtain ⟨l, hl, _⟩ := resourceNameActions_spec T cfg.Groups hgk e.2 [] (hne.2 e he).2
      exact ⟨_, hl⟩⟩)
  rw [hr] at hres
  cases hres
  rcases hmem x hx with h | ⟨e, he, h1, h2⟩
  · cases h
  · refine ⟨e, he, h1, h2, ?_⟩
    obtain ⟨l, hl, hf⟩ := resourceNameActions_spec T cfg.Groups hgk e.2 [] (hne.2 e he).2
    rw [h2] at hl
    have : x.2 = l := by simpa using hl
    rw [this]
    exact hf

/-! ## C3: the first scenario -/

/-- C3, counterexample: for the first scenario the list stored under the pair
of `book` gives `get` and `list` the `Type` `"string"` as well, since neither is
the key of a group; it is not the sequence the claim states, in which the
`Type` of `get` and of `list` is empty. -/
theorem C3_counterexample :
    (∀ T : CaseTables, ∃ out, convertConfigToTemplateData T scenarioOne = some out ∧
      mapIndex out.Resources bookPair =
        some [⟨"get".toList, "Get".toList, "string".toList⟩,
              ⟨"list".toList, "List".toList, "string".toList⟩,
              ⟨"publish".toList, "Publish".toList, "string".toList⟩]) ∧
    ¬ ∃ (T : CaseTables) (out : templateDataGenerate),
      convertConfigToTemplateData T scenarioOne = some out ∧
      mapIndex out.Resources bookPair =
        some [⟨"get".toList, "Get".toList, []⟩,
              ⟨"list".toList, "List".toList, []⟩,
              ⟨"publish".toList, "Publish".toList, "string".toList⟩] := by
  refine ⟨fun T => ⟨_, rfl, rfl⟩, ?_⟩
  rintro ⟨T, out, hout, h⟩
  have hc : convertConfigToTemplateData T scenarioOne =
      some ⟨[(⟨"read".toList, "Read".toList, []⟩,
              [⟨"get".toList, "Get".toList, []⟩, ⟨"list".toList, "List".toList, []⟩])],
            [(bookPair, [⟨"get".toList, "Get".toList, "string".toList⟩,
              ⟨"list".toList, "List".toList, "string".toList⟩,
              ⟨"publish".toList, "Publish".toList, "string".toList⟩])],
            "policies".toList⟩ := rfl
  rw [hc] at hout
  cases hout
  revert h
  decide


/-- C3, amended: for the first scenario the builder returns `Resources` with the
pair of `book` as a key, and the sequence stored under it is `get`, `list`,
`publish`, each with the `Type` `"string"`; in general, on a configuration whose
names are not empty, every list stored in `Resources` is built from the actions
of a resource, and an action carries an empty `Type` exactly when its public
form is that of the key of a declared group, and `"string"` exactly when it is
that of no group key. -/
theorem C3_scenario_one_types (T : CaseTables) :
    (∃ out, convertConfigToTemplateData T scenarioOne = some out ∧
      mapIndex out.Resources bookPair =
        some [⟨"get".toList, "Get".toList, "string".toList⟩,
              ⟨"list".toList, "List".toList, "string".toList⟩,
              ⟨"publish".toList, "Publish".toList, "string".toList⟩]) ∧
    (∀ cfg : policiesConfig, configNamesNonEmpty cfg →
      ∃ out, convertConfigToTemplateData T cfg = some out ∧
        ∀ x ∈ out.Resources, ∃ e ∈ cfg.ResourceConfig,
          newNamePolicies T e.1 = some x.1 ∧
          List.Forall₂ (fun a p =>
            (p.Type_ = [] ↔ matchesGroupKey T a cfg.Groups) ∧
            (p.Type_ = "string".toList ↔ ¬ matchesGroupKey T a cfg.Groups)) e.2 x.2) := by
  refine ⟨⟨_, rfl, rfl⟩, fun cfg hne => ?_⟩
  have hgk : ∀ e ∈ cfg.Groups, e.1 ≠ [] := fun e he => (hne.1 e he).1
  obtain ⟨g, r, _, _, hout⟩ := convert_of_namesNonEmpty T cfg hne
  refine ⟨_, hout, fun x hx => ?_⟩
  obtain ⟨e, he, h1, _, hf⟩ := convert_resources_mem T cfg hne _ hout x hx
  exact ⟨e, he, h1, hf.imp (fun a p h =>
    (builtFromResourceAction_type T cfg.Groups hgk a p h).symm)⟩

/-! ## C4: the private form of a name with a dash -/

/-- C4, the code at the failing input: from the group key `read-only` the
builder makes the private form `read-only`, dash included, and the public form
`ReadOnly`. The private form goes through `snakeToCamelCase`, which knows the
underscore only, and not through `dashToCamelCase` as the public form does. -/
theorem C4_read_only_private_keeps_dash (T : CaseTables) :
    newNamePolicies T "read-only".toList
      = some ⟨"read-only".toList, "ReadOnly".toList, []⟩ ∧
    toLowerCamel T "read-only".toList = some "read-only".toList ∧
    toUpperCamel T "read-only".toList = some "ReadOnly".toList ∧
    toLowerCamel T "read_only".toList = some "readOnly".toList :=
  ⟨rfl, rfl, rfl, rfl⟩


/-! ## C5: separators in the two forms -/

theorem isSeparator_unicodeToUpper (T : CaseTables) (hT : T.caseIsNoSeparator) (r : Char)
    (h : isSeparator r = false) : isSeparator (unicodeToUpper T r) = false := by
  by_cases hr : r.toNat ≤ 0x7F
  · have hn := toNat_unicodeToUpper_ascii T r hr
    cases hs : isSeparator (unicodeToUpper T r) with
    | false => rfl
    | true =>
      rw [isSeparator_iff] at hs
      have h2 : ¬ (r.toNat = 45 ∨ r.toNat = 95) := by
        rw [← isSeparator_iff]; simp [h]
      split at hn <;> omega
  · have : unicodeToUpper T r = T.upper r := by simp [unicodeToUpper, hr]
    rw [this]
    exact (hT r (by omega)).1

theorem isSeparator_unicodeToLower (T : CaseTables) (hT : T.caseIsNoSeparator) (r : Char)
    (h : isSeparator r = false) : isSeparator (unicodeToLower T r) = false := by
  by_cases hr : r.toNat ≤ 0x7F
  · have hn := toNat_unicodeToLower_ascii T r hr
    cases hs : isSeparator (unicodeToLower T r) with
    | false => rfl
    | true =>
      rw [isSeparator_iff] at hs
      have h2 : ¬ (r.toNat = 45 ∨ r.toNat = 95) := by
        rw [← isSeparator_iff]; simp [h]
      split at hn <;> omega
  · have : unicodeToLower T r = T.lower r := by simp [unicodeToLower, hr]
    rw [this]
    exact (hT r (by omega)).2

/-- The upper case of a letter of the class `[A-Za-z]` is one of `A`..`Z`. -/
theorem isAsciiUpper_unicodeToUpper (T : CaseTables) {c : Char} (h : isLinkLetter c = true) :
    isAsciiUpper (unicodeToUpper T c) = true := by
  rw [isLinkLetter_iff] at h
  rw [isAsciiUpper_iff, toNat_unicodeToUpper_ascii T c (by omega)]
  split <;> omega

theorem isSeparator_of_isAsciiUpper {c : Char} (h : isAsciiUpper c = true) :
    isSeparator c = false := by
  rw [isAsciiUpper_iff] at h
  cases hs : isSeparator c with
  | false => rfl
  | true => rw [isSeparator_iff] at hs; omega

/-- On a text without dashes in which every underscore stands before a letter,
the scan of `link` leaves no separator. -/
theorem scan_no_separator (T : CaseTables) :
    ∀ (n : Nat) (l : GoString) (b : Bool), l.length ≤ n → (∀ c ∈ l, c ≠ '-') →
      separatorsBeforeLetters l = true →
      ∀ c ∈ linkReplaceAllStringFunc (upperWithoutUnderscores T) b l, isSeparator c = false := by
  intro n
  induction n with
  | zero =>
    intro l b hl _ _
    have : l = [] := List.length_eq_zero.mp (Nat.le_zero.mp hl)
    subst this
    simp [linkReplaceAllStringFunc]
  | succ n ih =>
    intro l b hl hd hs
    cases l with
    | nil => simp [linkReplaceAllStringFunc]
    | cons c rest =>
      have hc : c ≠ '-' := hd c (List.mem_cons_self _ _)
      have hrest : ∀ x ∈ rest, x ≠ '-' := fun x hx => hd x (List.mem_cons_of_mem _ hx)
      have hlen : rest.length ≤ n := by simpa using hl
      simp only [separatorsBeforeLetters, Bool.and_eq_true, Bool.or_eq_true,
        Bool.not_eq_true'] at hs
      obtain ⟨hs1, hs2⟩ := hs
      by_cases hA : c = '_' ∧ startsWithLetter rest = true
      · obtain ⟨rfl, hst⟩ := hA
        cases rest with
        | nil => simp [startsWithLetter] at hst
        | cons d rest2 =>
          have hdl : isLinkLetter d = true := by simpa [startsWithLetter] using hst
          have hlen2 : rest2.length ≤ n := by
            simp at hlen; omega
          have hrest2 : ∀ x ∈ rest2, x ≠ '-' := fun x hx => hrest x (List.mem_cons_of_mem _ hx)
          have hs3 : separatorsBeforeLetters rest2 = true := by
            simp only [separatorsBeforeLetters, Bool.and_eq_true] at hs2
            exact hs2.2
          rw [scan_underscore_letter T b rest2 hdl]
          intro x hx
          rcases List.mem_cons.mp hx with rfl | hx
          · exact isSeparator_of_isAsciiUpper (isAsciiUpper_unicodeToUpper T hdl)
          · exact ih rest2 false hlen2 hrest2 hs3 x hx
      · have hcs : isSeparator c = false := by
          rcases hs1 with h | h
          · exact h
          · cases hsc : isSeparator c with
            | false => rfl
            | true => exact absurd ⟨(isSeparator_eq_underscore hc).mp hsc, h⟩ hA
        by_cases hB : b = true ∧ isLinkLetter c = true
        · obtain ⟨rfl, hl2⟩ := hB
          rw [scan_start_letter T rest hl2]
          intro x hx
          rcases List.mem_cons.mp hx with rfl | hx
          · exact isSeparator_of_isAsciiUpper (isAsciiUpper_unicodeToUpper T hl2)
          · exact ih rest false hlen hrest hs2 x hx
        · rw [scan_copy T b c rest hB hA]
          intro x hx
          rcases List.mem_cons.mp hx with rfl | hx
          · exact hcs
          · exact ih rest false hlen hrest hs2 x hx

theorem startsWithLetter_dashesToUnderscores (s : GoString) :
    startsWithLetter (dashesToUnderscores s) = startsWithLetter s := by
  cases s with
  | nil => rfl
  | cons c rest =>
    by_cases h : c = '-'
    · subst h
      simp only [dashesToUnderscores, List.map_cons, startsWithLetter, if_true]
      decide
    · simp [dashesToUnderscores, startsWithLetter, h]

theorem separatorsBeforeLetters_dashesToUnderscores (s : GoString)
    (h : separatorsBeforeLetters s = true) :
    separatorsBeforeLetters (dashesToUnderscores s) = true := by
  induction s with
  | nil => rfl
  | cons c rest ih =>
    simp only [separatorsBeforeLetters, Bool.and_eq_true, Bool.or_eq_true,
      Bool.not_eq_true'] at h
    have h2 := ih h.2
    have h3 := startsWithLetter_dashesToUnderscores rest
    simp only [dashesToUnderscores] at h2 h3
    simp only [dashesToUnderscores, List.map_cons, separatorsBeforeLetters, Bool.and_eq_true,
      Bool.or_eq_true, Bool.not_eq_true', h2, h3, and_true]
    rcases h.1 with h1 | h1
    · left
      by_cases hc : c = '-'
      · subst hc; simp [isSeparator] at h1
      · simpa [hc] using h1
    · exact Or.inr h1

/-- C5, counterexample: from the name `item_2` the builder makes the public form
`Item_2` and the private form `item_2`; the underscore, which no letter follows,
stays in both. -/
theorem C5_counterexample :
    (∀ T : CaseTables, newNamePolicies T "item_2".toList
      = some ⟨"item_2".toList, "Item_2".toList, []⟩) ∧
    '_' ∈ "Item_2".toList ∧ '_' ∈ "item_2".toList :=
  ⟨fun _ => rfl, by decide, by decide⟩

/-- C5, amended: for every name `s` that is not empty and in which every
separator is immediately followed by a letter `[A-Za-z]`, the public form is
built and contains no dash and no underscore; and when `s` has no dash, the
private form is built and contains no dash and no underscore either. The case
tables are assumed to give no rune a separator as its upper or lower case. -/
theorem C5_no_separator_left (T : CaseTables) (hT : T.caseIsNoSeparator) (s : GoString)
    (hne : s ≠ []) (hs : separatorsBeforeLetters s = true) :
    (∃ u, toUpperCamel T s = some u ∧ ∀ c ∈ u, c ≠ '-' ∧ c ≠ '_') ∧
    ((∀ c ∈ s, c ≠ '-') → ∃ l, toLowerCamel T s = some l ∧ ∀ c ∈ l, c ≠ '-' ∧ c ≠ '_') := by
  have hsep : ∀ c : Char, isSeparator c = false → c ≠ '-' ∧ c ≠ '_' := by
    intro c hc
    constructor <;> rintro rfl <;> simp [isSeparator] at hc
  constructor
  · have hscan := scan_no_separator T _ (dashesToUnderscores s) true (Nat.le_refl _)
      (dashesToUnderscores_no_dash s) (separatorsBeforeLetters_dashesToUnderscores s hs)
    have hnn := dashToCamelCase_ne_nil T s hne
    unfold toUpperCamel
    change ∀ c ∈ dashToCamelCase T s, isSeparator c = false at hscan
    cases hd : dashToCamelCase T s with
    | nil => exact absurd hd hnn
    | cons r0 r =>
      rw [hd] at hscan
      refine ⟨_, rfl, fun c hc => hsep c ?_⟩
      rcases List.mem_cons.mp hc with rfl | hc
      · exact isSeparator_unicodeToUpper T hT r0 (hscan r0 (List.mem_cons_self _ _))
      · exact hscan c (List.mem_cons_of_mem _ hc)
  · intro hnd
    have hscan := scan_no_separator T _ s true (Nat.le_refl _) hnd hs
    have hnn := snakeToCamelCase_ne_nil T s hne
    unfold toLowerCamel
    change ∀ c ∈ snakeToCamelCase T s, isSeparator c = false at hscan
    cases hd : snakeToCamelCase T s with
    | nil => exact absurd hd hnn
    | cons r0 r =>
      rw [hd] at hscan
      refine ⟨_, rfl, fun c hc => hsep c ?_⟩
      rcases List.mem_cons.mp hc with rfl | hc
      · exact isSeparator_unicodeToLower T hT r0 (hscan r0 (List.mem_cons_self _ _))
      · exact hscan c (List.mem_cons_of_mem _ hc)

theorem asciiOnlyTables_caseIsNoSeparator : asciiOnlyTables.caseIsNoSeparator := by
  intro r hr
  have h : isSeparator r = false := by
    cases hs : isSeparator r with
    | false => rfl
    | true => rw [isSeparator_iff] at hs; omega
  exact ⟨h, h⟩

/-- C5, witness: the amended statement at the name `get_item`. -/
theorem C5_no_separator_left_witness :
    asciiOnlyTables.caseIsNoSeparator ∧ "get_item".toList ≠ [] ∧
    separatorsBeforeLetters "get_item".toList = true ∧
    (∃ u, toUpperCamel asciiOnlyTables "get_item".toList = some u ∧ ∀ c ∈ u, c ≠ '-' ∧ c ≠ '_') ∧
    ((∀ c ∈ "get_item".toList, c ≠ '-') →
      ∃ l, toLowerCamel asciiOnlyTables "get_item".toList = some l ∧
        ∀ c ∈ l, c ≠ '-' ∧ c ≠ '_') :=
  ⟨asciiOnlyTables_caseIsNoSeparator, by decide, by decide,
    C5_no_separator_left asciiOnlyTables asciiOnlyTables_caseIsNoSeparator "get_item".toList
      (by decide) (by decide)⟩


/-! ## C6: the first rune of the two forms -/

theorem isAsciiUpper_unicodeToUpper_self (T : CaseTables) {c : Char}
    (h : isAsciiUpper c = true) : isAsciiUpper (unicodeToUpper T c) = true := by
  rw [isAsciiUpper_iff] at h
  rw [isAsciiUpper_iff, toNat_unicodeToUpper_ascii T c (by omega)]
  split <;> omega

theorem isAsciiLower_unicodeToLower (T : CaseTables) {c : Char}
    (h : isAsciiUpper c = true) : isAsciiLower (unicodeToLower T c) = true := by
  rw [isAsciiUpper_iff] at h
  rw [isAsciiLower_iff, toNat_unicodeToLower_ascii T c (by omega)]
  split <;> omega

theorem capitalize_eq_some {T : CaseTables} {s r : GoString} (h : capitalize T s = some r) :
    ∃ r0 rest, s = r0 :: rest ∧ r = unicodeToUpper T r0 :: rest := by
  cases s with
  | nil => cases h
  | cons r0 rest => exact ⟨r0, rest, rfl, (Option.some.inj h).symm⟩

theorem unCapitalize_eq_some {T : CaseTables} {s r : GoString} (h : unCapitalize T s = some r) :
    ∃ r0 rest, s = r0 :: rest ∧ r = unicodeToLower T r0 :: rest := by
  cases s with
  | nil => cases h
  | cons r0 rest => exact ⟨r0, rest, rfl, (Option.some.inj h).symm⟩

/-- C6, counterexample: from the name `1a` the builder makes the public form
`1a` and the private form `1a`; their first rune, the digit `1`, is neither an
upper-case nor a lower-case letter. -/
theorem C6_counterexample :
    (∀ T : CaseTables, newNamePolicies T "1a".toList = some ⟨"1a".toList, "1a".toList, []⟩) ∧
    isAsciiUpper '1' = false ∧ isAsciiLower '1' = false ∧ isLinkLetter '1' = false :=
  ⟨fun _ => rfl, by decide, by decide, by decide⟩

/-- C6, amended: from every name `s` that is not empty the builder makes a pair
whose public and private forms are not empty; and when the first rune of `s` is
a letter `[A-Za-z]`, the public form begins with one of `A`..`Z` and the private
form with one of `a`..`z`. -/
theorem C6_first_rune_case (T : CaseTables) (s : GoString) (hne : s ≠ []) :
    ∃ p, newNamePolicies T s = some p ∧ p.Public ≠ [] ∧ p.Private ≠ [] ∧
      (startsWithLetter s = true →
        (∃ u, p.Public.head? = some u ∧ isAsciiUpper u = true) ∧
        (∃ l, p.Private.head? = some l ∧ isAsciiLower l = true)) := by
  obtain ⟨p, hp, hlow, hup, _⟩ := newNamePolicies_of_ne_nil T s hne
  obtain ⟨u0, urest, hu1, hu2⟩ := capitalize_eq_some hup
  obtain ⟨l0, lrest, hl1, hl2⟩ := unCapitalize_eq_some hlow
  refine ⟨p, hp, by rw [hu2]; exact List.cons_ne_nil _ _,
    by rw [hl2]; exact List.cons_ne_nil _ _, fun hst => ?_⟩
  cases s with
  | nil => exact absurd rfl hne
  | cons c rest =>
    have hc : isLinkLetter c = true := by simpa [startsWithLetter] using hst
    have hcd : c ≠ '-' := by
      intro h
      rw [isLinkLetter_iff] at hc
      rw [eq_dash_iff] at h
      omega
    constructor
    · have hd : dashToCamelCase T (c :: rest) = unicodeToUpper T c ::
          linkReplaceAllStringFunc (upperWithoutUnderscores T) false (dashesToUnderscores rest) := by
        have : dashesToUnderscores (c :: rest) = c :: dashesToUnderscores rest := by
          simp [dashesToUnderscores, hcd]
        unfold dashToCamelCase snakeToCamelCase
        rw [this, scan_start_letter T _ hc]
      rw [hd] at hu1
      cases hu1
      exact ⟨_, by rw [hu2]; rfl,
        isAsciiUpper_unicodeToUpper_self T (isAsciiUpper_unicodeToUpper T hc)⟩
    · have hd : snakeToCamelCase T (c :: rest) = unicodeToUpper T c ::
          linkReplaceAllStringFunc (upperWithoutUnderscores T) false rest := by
        unfold snakeToCamelCase
        rw [scan_start_letter T _ hc]
      rw [hd] at hl1
      cases hl1
      exact ⟨_, by rw [hl2]; rfl,
        isAsciiLower_unicodeToLower T (isAsciiUpper_unicodeToUpper T hc)⟩

/-- C6, witness: the amended statement at the name `read-only`. -/
theorem C6_first_rune_case_witness :
    "read-only".toList ≠ [] ∧
    ∃ p, newNamePolicies asciiOnlyTables "read-only".toList = some p ∧
      p.Public ≠ [] ∧ p.Private ≠ [] ∧
      (startsWithLetter "read-only".toList = true →
        (∃ u, p.Public.head? = some u ∧ isAsciiUpper u = true) ∧
        (∃ l, p.Private.head? = some l ∧ isAsciiLower l = true)) :=
  ⟨by decide, C6_first_rune_case asciiOnlyTables "read-only".toList (by decide)⟩


/-! ## C7 and C8: converting a second time -/

theorem unicodeToUpper_idem_ascii (T : CaseTables) (r : Char) (h : r.toNat ≤ 0x7F) :
    unicodeToUpper T (unicodeToUpper T r) = unicodeToUpper T r := by
  have h1 := toNat_unicodeToUpper_ascii T r h
  have h2 : (unicodeToUpper T r).toNat ≤ 0x7F := by
    rw [h1]; split <;> omega
  apply char_eq_of_toNat
  rw [toNat_unicodeToUpper_ascii T _ h2, h1]
  split_ifs <;> omega

theorem unicodeToLower_idem_ascii (T : CaseTables) (r : Char) (h : r.toNat ≤ 0x7F) :
    unicodeToLower T (unicodeToLower T r) = unicodeToLower T r := by
  have h1 := toNat_unicodeToLower_ascii T r h
  have h2 : (unicodeToLower T r).toNat ≤ 0x7F := by
    rw [h1]; split <;> omega
  apply char_eq_of_toNat
  rw [toNat_unicodeToLower_ascii T _ h2, h1]
  split_ifs <;> omega

/-- Lower-casing the upper case of a letter `[A-Za-z]` is lower-casing the
letter. -/
theorem unicodeToLower_unicodeToUpper_letter (T : CaseTables) {c : Char}
    (h : isLinkLetter c = true) :
    unicodeToLower T (unicodeToUpper T c) = unicodeToLower T c := by
  rw [isLinkLetter_iff] at h
  have hc : c.toNat ≤ 0x7F := by omega
  have h1 := toNat_unicodeToUpper_ascii T c hc
  have h2 : (unicodeToUpper T c).toNat ≤ 0x7F := by
    rw [h1]; split <;> omega
  apply char_eq_of_toNat
  rw [toNat_unicodeToLower_ascii T _ h2, toNat_unicodeToLower_ascii T _ hc, h1]
  split_ifs <;> omega

theorem scan_false_no_underscore (T : CaseTables) (l : GoString) (h : ∀ c ∈ l, c ≠ '_') :
    linkReplaceAllStringFunc (upperWithoutUnderscores T) false l = l := by
  induction l with
  | nil => simp [linkReplaceAllStringFunc]
  | cons c rest ih =>
    rw [scan_copy T false c rest (by simp)
      (fun hc => h c (List.mem_cons_self _ _) hc.1),
      ih (fun x hx => h x (List.mem_cons_of_mem _ hx))]

/-- The scan of `link` over a text without underscore changes its first rune
only, and only when it is a letter. -/
theorem snakeToCamelCase_no_underscore (T : CaseTables) (c : Char) (rest : GoString)
    (h : ∀ x ∈ c :: rest, x ≠ '_') :
    snakeToCamelCase T (c :: rest)
      = (if isLinkLetter c = true then unicodeToUpper T c else c) :: rest := by
  have hrest := scan_false_no_underscore T rest (fun x hx => h x (List.mem_cons_of_mem _ hx))
  unfold snakeToCamelCase
  cases hl : isLinkLetter c with
  | true => rw [scan_start_letter T rest hl, hrest]; simp
  | false =>
    rw [scan_copy T true c rest (by simp [hl])
      (fun hc => h c (List.mem_cons_self _ _) hc.1), hrest]
    simp

theorem dashesToUnderscores_no_dash_eq (s : GoString) (h : ∀ c ∈ s, c ≠ '-') :
    dashesToUnderscores s = s := by
  induction s with
  | nil => rfl
  | cons c rest ih =>
    have hc := h c (List.mem_cons_self _ _)
    have := ih (fun x hx => h x (List.mem_cons_of_mem _ hx))
    simp only [dashesToUnderscores] at this
    simp [dashesToUnderscores, hc, this]

/-- The public form of a name without separators is the name with its first
rune upper-cased. -/
theorem toUpperCamel_no_separator (T : CaseTables) (s : GoString)
    (h : ∀ c ∈ s, c ≠ '-' ∧ c ≠ '_') : toUpperCamel T s = capitalize T s := by
  unfold toUpperCamel dashToCamelCase
  rw [dashesToUnderscores_no_dash_eq s (fun c hc => (h c hc).1)]
  cases s with
  | nil => rfl
  | cons c rest =>
    rw [snakeToCamelCase_no_underscore T c rest (fun x hx => (h x hx).2)]
    cases hl : isLinkLetter c with
    | false => simp
    | true =>
      have hc : c.toNat ≤ 0x7F := by
        rw [isLinkLetter_iff] at hl; omega
      simp [capitalize, unicodeToUpper_idem_ascii T c hc]

/-- The private form of a name without underscore is the name with its first
rune lower-cased. -/
theorem toLowerCamel_no_underscore (T : CaseTables) (s : GoString)
    (h : ∀ c ∈ s, c ≠ '_') : toLowerCamel T s = unCapitalize T s := by
  unfold toLowerCamel
  cases s with
  | nil => rfl
  | cons c rest =>
    rw [snakeToCamelCase_no_underscore T c rest h]
    cases hl : isLinkLetter c with
    | false => simp
    | true => simp [unCapitalize, unicodeToLower_unicodeToUpper_letter T hl]

/-- C7, counterexample: the public form of `__a` is `_A`, and the public form
of `_A` is `A`; the private form of `__a` is `_A`, and the private form of `_A`
is `a`. Neither conversion is idempotent on `__a`. -/
theorem C7_counterexample :
    (∀ T : CaseTables, toUpperCamel T "__a".toList = some "_A".toList ∧
      toUpperCamel T "_A".toList = some "A".toList) ∧
    (∀ T : CaseTables, toLowerCamel T "__a".toList = some "_A".toList ∧
      toLowerCamel T "_A".toList = some "a".toList) ∧
    "_A".toList ≠ "A".toList ∧ "_A".toList ≠ "a".toList :=
  ⟨fun _ => ⟨rfl, rfl⟩, fun _ => ⟨rfl, rfl⟩, by decide, by decide⟩

/-- C7, amended: for every name `s` that is not empty, the public form `u` of
`s` is built, and when `u` contains no separator the public form of `u` is `u`;
likewise the private form `l` of `s` is built, and when `l` contains no
separator the private form of `l` is `l`. The case tables are assumed to make
`unicode.ToUpper` and `unicode.ToLower` idempotent. -/
theorem C7_idempotent_without_separator (T : CaseTables) (hU : T.upperIdempotent)
    (hL : T.lowerIdempotent) (s : GoString) (hne : s ≠ []) :
    (∃ u, toUpperCamel T s = some u ∧
      ((∀ c ∈ u, c ≠ '-' ∧ c ≠ '_') → toUpperCamel T u = some u)) ∧
    (∃ l, toLowerCamel T s = some l ∧
      ((∀ c ∈ l, c ≠ '-' ∧ c ≠ '_') → toLowerCamel T l = some l)) := by
  constructor
  · obtain ⟨u, hu⟩ := toUpperCamel_isSome T s hne
    refine ⟨u, hu, fun hsep => ?_⟩
    obtain ⟨r0, rest, _, hr⟩ := capitalize_eq_some hu
    rw [toUpperCamel_no_separator T u hsep, hr]
    simp [capitalize, hU r0]
  · obtain ⟨l, hl⟩ := toLowerCamel_isSome T s hne
    refine ⟨l, hl, fun hsep => ?_⟩
    obtain ⟨r0, rest, _, hr⟩ := unCapitalize_eq_some hl
    rw [toLowerCamel_no_underscore T l (fun c hc => (hsep c hc).2), hr]
    simp [unCapitalize, hL r0]

theorem asciiOnlyTables_upperIdempotent : asciiOnlyTables.upperIdempotent := by
  intro r
  by_cases h : r.toNat ≤ 0x7F
  · exact unicodeToUpper_idem_ascii _ r h
  · have : unicodeToUpper asciiOnlyTables r = r := by simp [unicodeToUpper, h, asciiOnlyTables]
    rw [this, this]

theorem asciiOnlyTables_lowerIdempotent : asciiOnlyTables.lowerIdempotent := by
  intro r
  by_cases h : r.toNat ≤ 0x7F
  · exact unicodeToLower_idem_ascii _ r h
  · have : unicodeToLower asciiOnlyTables r = r := by simp [unicodeToLower, h, asciiOnlyTables]
    rw [this, this]

/-- C7, witness: the amended statement at the name `get_item`, whose public form
`GetItem` and private form `getItem` contain no separator. -/
theorem C7_idempotent_without_separator_witness :
    asciiOnlyTables.upperIdempotent ∧ asciiOnlyTables.lowerIdempotent ∧
    "get_item".toList ≠ [] ∧
    toUpperCamel asciiOnlyTables "get_item".toList = some "GetItem".toList ∧
    toLowerCamel asciiOnlyTables "get_item".toList = some "getItem".toList ∧
    (∃ u, toUpperCamel asciiOnlyTables "get_item".toList = some u ∧
      ((∀ c ∈ u, c ≠ '-' ∧ c ≠ '_') → toUpperCamel asciiOnlyTables u = some u)) ∧
    (∃ l, toLowerCamel asciiOnlyTables "get_item".toList = some l ∧
      ((∀ c ∈ l, c ≠ '-' ∧ c ≠ '_') → toLowerCamel asciiOnlyTables l = some l)) :=
  ⟨asciiOnlyTables_upperIdempotent, asciiOnlyTables_lowerIdempotent, by decide, rfl, rfl,
    C7_idempotent_without_separator asciiOnlyTables asciiOnlyTables_upperIdempotent
      asciiOnlyTables_lowerIdempotent "get_item".toList (by decide)⟩

/-- C8: for every name `s` that is not empty and contains no dash and no
underscore, the public form `u` of `s` is built and the public form of `u` is
`u` again. The case tables are assumed to make `unicode.ToUpper` idempotent and
to give no rune a separator as its upper case. -/
theorem C8_toUpperCamel_idempotent_on_separator_free (T : CaseTables)
    (hS : T.caseIsNoSeparator) (hU : T.upperIdempotent) (s : GoString) (hne : s ≠ [])
    (hs : ∀ c ∈ s, c ≠ '-' ∧ c ≠ '_') :
    ∃ u, toUpperCamel T s = some u ∧ toUpperCamel T u = some u := by
  cases s with
  | nil => exact absurd rfl hne
  | cons c rest =>
    have hsepf : ∀ x : Char, x ≠ '-' ∧ x ≠ '_' → isSeparator x = false := by
      intro x hx; simp [isSeparator, hx.1, hx.2]
    have hfsep : ∀ x : Char, isSeparator x = false → x ≠ '-' ∧ x ≠ '_' := by
      intro x hx
      constructor <;> rintro rfl <;> simp [isSeparator] at hx
    refine ⟨unicodeToUpper T c :: rest, ?_, ?_⟩
    · rw [toUpperCamel_no_separator T _ hs]; rfl
    · have hu : ∀ x ∈ unicodeToUpper T c :: rest, x ≠ '-' ∧ x ≠ '_' := by
        intro x hx
        rcases List.mem_cons.mp hx with rfl | hx
        · exact hfsep _ (isSeparator_unicodeToUpper T hS c
            (hsepf c (hs c (List.mem_cons_self _ _))))
        · exact hs x (List.mem_cons_of_mem _ hx)
      rw [toUpperCamel_no_separator T _ hu]
      simp [capitalize, hU c]

/-- C8, witness: the statement at the name `getItem`. -/
theorem C8_toUpperCamel_idempotent_on_separator_free_witness :
    asciiOnlyTables.caseIsNoSeparator ∧ asciiOnlyTables.upperIdempotent ∧
    "getItem".toList ≠ [] ∧ (∀ c ∈ "getItem".toList, c ≠ '-' ∧ c ≠ '_') ∧
    ∃ u, toUpperCamel asciiOnlyTables "getItem".toList = some u ∧
      toUpperCamel asciiOnlyTables u = some u :=
  ⟨asciiOnlyTables_caseIsNoSeparator, asciiOnlyTables_upperIdempotent, by decide, by decide,
    C8_toUpperCamel_idempotent_on_separator_free asciiOnlyTables
      asciiOnlyTables_caseIsNoSeparator asciiOnlyTables_upperIdempotent "getItem".toList
      (by decide) (by decide)⟩

/-! ## C9: dashes and underscores -/

theorem dashesToUnderscores_idem (s : GoString) :
    dashesToUnderscores (dashesToUnderscores s) = dashesToUnderscores s :=
  dashesToUnderscores_no_dash_eq _ (dashesToUnderscores_no_dash s)

/-- C9: for every name `s` that is not empty, the public form of `s` with every
dash replaced by an underscore is the public form of `s`, and it is built. -/
theorem C9_dash_underscore_equivalence (T : CaseTables) (s : GoString) (hne : s ≠ []) :
    toUpperCamel T (dashesToUnderscores s) = toUpperCamel T s ∧
    ∃ u, toUpperCamel T s = some u := by
  refine ⟨?_, toUpperCamel_isSome T s hne⟩
  unfold toUpperCamel dashToCamelCase
  rw [dashesToUnderscores_idem]

/-- C9, witness: the statement at the name `get-item`. -/
theorem C9_dash_underscore_equivalence_witness :
    "get-item".toList ≠ [] ∧
    dashesToUnderscores "get-item".toList = "get_item".toList ∧
    (toUpperCamel asciiOnlyTables (dashesToUnderscores "get-item".toList)
        = toUpperCamel asciiOnlyTables "get-item".toList ∧
      ∃ u, toUpperCamel asciiOnlyTables "get-item".toList = some u) :=
  ⟨by decide, by decide,
    C9_dash_underscore_equivalence asciiOnlyTables "get-item".toList (by decide)⟩


/-! ## C10: the order of the actions -/

theorem eq_of_mem_of_nodup_keys {m : List (GoString × List GoString)}
    (hm : (m.map Prod.fst).Nodup) {k : GoString} {a b : List GoString}
    (ha : (k, a) ∈ m) (hb : (k, b) ∈ m) : a = b := by
  induction m with
  | nil => cases ha
  | cons e rest ih =>
    rw [List.map_cons, List.nodup_cons] at hm
    rcases List.mem_cons.mp ha with ha | ha <;> rcases List.mem_cons.mp hb with hb | hb
    · rw [← ha] at hb
      exact (Prod.mk.inj hb).2.symm
    · exfalso
      apply hm.1
      rw [← ha]
      exact List.mem_map.mpr ⟨(k, b), hb, rfl⟩
    · exfalso
      apply hm.1
      rw [← hb]
      exact List.mem_map.mpr ⟨(k, a), ha, rfl⟩
    · exact ih hm.2 ha hb

/-- After the loop over a section whose keys are distinct, the list stored under
the pair of a key that shares its pair with no other key is the list the inner
loop builds from the actions of that key. -/
theorem sectionLoop_index_of_unshared (T : CaseTables)
    (inner : List GoString → Option (List namePolicies))
    (entries : List (GoString × List GoString)) (hm : (entries.map Prod.fst).Nodup)
    (res : List (namePolicies × List namePolicies))
    (hres : sectionLoop T inner [] entries = some res)
    (k : GoString) (acts : List GoString) (hk : (k, acts) ∈ entries)
    (hun : ∀ e ∈ entries, e.1 ≠ k → newNamePolicies T e.1 ≠ newNamePolicies T k)
    (kn : namePolicies) (hkn : newNamePolicies T k = some kn)
    (l : List namePolicies) (hl : inner acts = some l) :
    mapIndex res kn = some l := by
  refine sectionLoop_index T inner kn l entries [] res hres ⟨(k, acts), hk, hkn⟩ ?_
  intro e he hek
  have hek2 : e.1 = k := by
    by_contra hne
    exact hun e he hne (by rw [hek, hkn])
  obtain ⟨k2, a2⟩ := e
  simp only at hek2
  subst hek2
  rw [eq_of_mem_of_nodup_keys hm he hk]
  exact hl

/-- C10: on a configuration whose names are not empty the builder returns; for
every group key whose pair no other group key shares, the sequence stored under
that pair in `Groups` has the length of the key's action list and its `i`-th
element is the pair built from the `i`-th action; and the same holds in
`Resources` for every resource key whose pair no other resource key shares, the
`i`-th element being what the resource block builds from the `i`-th action.
Nothing is reordered and nothing is dropped. -/
theorem C10_order_preserved_no_dedup (T : CaseTables) (cfg : policiesConfig)
    (hne : configNamesNonEmpty cfg)
    (hG : (cfg.Groups.map Prod.fst).Nodup) (hR : (cfg.ResourceConfig.map Prod.fst).Nodup) :
    ∃ out, convertConfigToTemplateData T cfg = some out ∧
      (∀ k acts, (k, acts) ∈ cfg.Groups →
        (∀ e ∈ cfg.Groups, e.1 ≠ k → newNamePolicies T e.1 ≠ newNamePolicies T k) →
        ∃ kn l, newNamePolicies T k = some kn ∧ mapIndex out.Groups kn = some l ∧
          l.length = acts.length ∧
          ∀ i (h1 : i < acts.length) (h2 : i < l.length),
            newNamePolicies T (acts.get ⟨i, h1⟩) = some (l.get ⟨i, h2⟩)) ∧
      (∀ k acts, (k, acts) ∈ cfg.ResourceConfig →
        (∀ e ∈ cfg.ResourceConfig, e.1 ≠ k → newNamePolicies T e.1 ≠ newNamePolicies T k) →
        ∃ kn l, newNamePolicies T k = some kn ∧ mapIndex out.Resources kn = some l ∧
          l.length = acts.length ∧
          ∀ i (h1 : i < acts.length) (h2 : i < l.length),
            builtFromResourceAction T cfg.Groups (acts.get ⟨i, h1⟩) (l.get ⟨i, h2⟩)) := by
  have hgk : ∀ e ∈ cfg.Groups, e.1 ≠ [] := fun e he => (hne.1 e he).1
  obtain ⟨g, r, hg, hr, hout⟩ := convert_of_namesNonEmpty T cfg hne
  refine ⟨_, hout, ?_, ?_⟩
  · intro k acts hk hun
    obtain ⟨kn, hkn, _⟩ := newNamePolicies_of_ne_nil T k (hne.1 _ hk).1
    obtain ⟨l, hl, hf⟩ := groupNameActions_spec T acts [] (hne.1 _ hk).2
    rw [List.nil_append] at hl
    exact ⟨kn, l, hkn,
      sectionLoop_index_of_unshared T _ cfg.Groups hG g hg k acts hk hun kn hkn l hl,
      hf.length_eq.symm, fun i h1 h2 => hf.get h1 h2⟩
  · intro k acts hk hun
    obtain ⟨kn, hkn, _⟩ := newNamePolicies_of_ne_nil T k (hne.2 _ hk).1
    obtain ⟨l, hl, hf⟩ := resourceNameActions_spec T cfg.Groups hgk acts [] (hne.2 _ hk).2
    rw [List.nil_append] at hl
    exact ⟨kn, l, hkn,
      sectionLoop_index_of_unshared T _ cfg.ResourceConfig hR r hr k acts hk hun kn hkn l hl,
      hf.length_eq.symm, fun i h1 h2 => hf.get h1 h2⟩

/-- C10, witness: the statement at the third scenario, where the resource
`book` lists `get` twice and the sequence stored under the pair of `book` holds
two equal entries. -/
theorem C10_order_preserved_no_dedup_witness :
    configNamesNonEmpty scenarioThree ∧
    (scenarioThree.Groups.map Prod.fst).Nodup ∧
    (scenarioThree.ResourceConfig.map Prod.fst).Nodup ∧
    (∃ out, convertConfigToTemplateData asciiOnlyTables scenarioThree = some out ∧
      mapIndex out.Resources bookPair =
        some [⟨"get".toList, "Get".toList, "string".toList⟩,
              ⟨"get".toList, "Get".toList, "string".toList⟩]) ∧
    ∃ out, convertConfigToTemplateData asciiOnlyTables scenarioThree = some out ∧
      (∀ k acts, (k, acts) ∈ scenarioThree.Groups →
        (∀ e ∈ scenarioThree.Groups, e.1 ≠ k →
          newNamePolicies asciiOnlyTables e.1 ≠ newNamePolicies asciiOnlyTables k) →
        ∃ kn l, newNamePolicies asciiOnlyTables k = some kn ∧
          mapIndex out.Groups kn = some l ∧ l.length = acts.length ∧
          ∀ i (h1 : i < acts.length) (h2 : i < l.length),
            newNamePolicies asciiOnlyTables (acts.get ⟨i, h1⟩) = some (l.get ⟨i, h2⟩)) ∧
      (∀ k acts, (k, acts) ∈ scenarioThree.ResourceConfig →
        (∀ e ∈ scenarioThree.ResourceConfig, e.1 ≠ k →
          newNamePolicies asciiOnlyTables e.1 ≠ newNamePolicies asciiOnlyTables k) →
        ∃ kn l, newNamePolicies asciiOnlyTables k = some kn ∧
          mapIndex out.Resources kn = some l ∧ l.length = acts.length ∧
          ∀ i (h1 : i < acts.length) (h2 : i < l.length),
            builtFromResourceAction asciiOnlyTables scenarioThree.Groups
              (acts.get ⟨i, h1⟩) (l.get ⟨i, h2⟩)) :=
  ⟨by decide, by decide, by decide, ⟨_, rfl, rfl⟩,
    C10_order_preserved_no_dedup asciiOnlyTables scenarioThree (by decide) (by decide)
      (by decide)⟩

/-! ## C11: the case of the letters in the comparison -/

theorem unicodeToUpper_eq_of_sameLetter (T : CaseTables) {c d : Char}
    (h : sameLetter c d = true) : unicodeToUpper T c = unicodeToUpper T d := by
  simp only [sameLetter, Bool.and_eq_true, Bool.or_eq_true, beq_iff_eq] at h
  obtain ⟨⟨hc, hd⟩, hcd⟩ := h
  rw [isLinkLetter_iff] at hc hd
  apply char_eq_of_toNat
  rw [toNat_unicodeToUpper_ascii T c (by omega), toNat_unicodeToUpper_ascii T d (by omega)]
  split_ifs <;> omega

theorem isLinkLetter_of_sameLetter {c d : Char} (h : sameLetter c d = true) :
    isLinkLetter c = true ∧ isLinkLetter d = true := by
  simp only [sameLetter, Bool.and_eq_true] at h
  exact h.1

theorem ne_dash_of_isLinkLetter {c : Char} (h : isLinkLetter c = true) : c ≠ '-' := by
  rw [isLinkLetter_iff] at h
  intro hc
  rw [eq_dash_iff] at hc
  omega

theorem isSeparator_dashToUnderscore (c : Char) :
    isSeparator (if c = '-' then '_' else c) = isSeparator c := by
  by_cases h : c = '-'
  · subst h; decide
  · simp [h]

theorem isLinkLetter_dashToUnderscore (c : Char) :
    isLinkLetter (if c = '-' then '_' else c) = isLinkLetter c := by
  by_cases h : c = '-'
  · subst h; decide
  · simp [h]

theorem startsWithLetter_of_caseVariantFrom (p : Option Char) (a k : GoString)
    (h : caseVariantFrom p a k = true) : startsWithLetter a = startsWithLetter k := by
  cases a with
  | nil =>
    cases k with
    | nil => rfl
    | cons d ds => simp [caseVariantFrom] at h
  | cons c cs =>
    cases k with
    | nil => simp [caseVariantFrom] at h
    | cons d ds =>
      simp only [caseVariantFrom, Bool.and_eq_true, Bool.or_eq_true, beq_iff_eq] at h
      rcases h.1 with h1 | h1
      · subst h1; rfl
      · have := isLinkLetter_of_sameLetter h1.2
        simp [startsWithLetter, this.1, this.2]

/-- The scan of the specification gives two names that differ at most in the
case of letters standing first or after a separator the same text, once their
dashes are underscores. -/
theorem spec_eq_of_caseVariantFrom (T : CaseTables) :
    ∀ (a k : GoString) (p pa pk : Option Char),
      afterSeparatorOrStart pa = afterSeparatorOrStart p →
      afterSeparatorOrStart pk = afterSeparatorOrStart p →
      caseVariantFrom p a k = true →
      specUpperCamelFrom T pa (dashesToUnderscores a)
        = specUpperCamelFrom T pk (dashesToUnderscores k) := by
  intro a
  induction a with
  | nil =>
    intro k p pa pk _ _ h
    cases k with
    | nil => rfl
    | cons d ds => simp [caseVariantFrom] at h
  | cons c cs ih =>
    intro k p pa pk hpa hpk h
    cases k with
    | nil => simp [caseVariantFrom] at h
    | cons d ds =>
      simp only [caseVariantFrom, Bool.and_eq_true, Bool.or_eq_true, beq_iff_eq] at h
      obtain ⟨hcd, hrest⟩ := h
      have hst : startsWithLetter (dashesToUnderscores cs)
          = startsWithLetter (dashesToUnderscores ds) := by
        rw [startsWithLetter_dashesToUnderscores, startsWithLetter_dashesToUnderscores]
        exact startsWithLetter_of_caseVariantFrom _ _ _ hrest
      have hda : dashesToUnderscores (c :: cs)
          = (if c = '-' then '_' else c) :: dashesToUnderscores cs := by
        simp [dashesToUnderscores]
      have hdk : dashesToUnderscores (d :: ds)
          = (if d = '-' then '_' else d) :: dashesToUnderscores ds := by
        simp [dashesToUnderscores]
      rw [hda, hdk]
      rcases hcd with hcd | hcd
      · subst hcd
        have hrec := ih ds (some c) (some (if c = '-' then '_' else c))
          (some (if c = '-' then '_' else c))
          (by simp [afterSeparatorOrStart, isSeparator_dashToUnderscore])
          (by simp [afterSeparatorOrStart, isSeparator_dashToUnderscore]) hrest
        simp only [specUpperCamelFrom, hst, hpa, hpk, hrec]
      · obtain ⟨hp, hsl⟩ := hcd
        obtain ⟨hlc, hld⟩ := isLinkLetter_of_sameLetter hsl
        have hc : c ≠ '-' := ne_dash_of_isLinkLetter hlc
        have hd : d ≠ '-' := ne_dash_of_isLinkLetter hld
        have hrec := ih ds (some c) (some c) (some d) rfl
          (by simp [afterSeparatorOrStart, isSeparator_of_isLinkLetter hlc,
            isSeparator_of_isLinkLetter hld]) hrest
        simp only [hc, hd, if_false, specUpperCamelFrom, isSeparator_of_isLinkLetter hlc,
          isSeparator_of_isLinkLetter hld, Bool.false_and, hlc, hld, hpa, hpk, hp,
          Bool.and_self, if_true, hrec, unicodeToUpper_eq_of_sameLetter T hsl]

/-- Two names that differ at most in the case of letters standing first or
after a separator have the same public form. -/
theorem toUpperCamel_eq_of_caseVariant (T : CaseTables) (a k : GoString)
    (h : caseVariantFrom none a k = true) : toUpperCamel T a = toUpperCamel T k := by
  unfold toUpperCamel
  rw [dashToCamelCase_eq_spec, dashToCamelCase_eq_spec]
  unfold specUpperCamel
  rw [spec_eq_of_caseVariantFrom T a k none none none rfl rfl h]

/-- C11, counterexample: with `get` as the only group key, `isActionInGroup`
is false on the action `GET`: the public form of `GET` is `GET` and that of
`get` is `Get`. -/
theorem C11_counterexample :
    (∀ T : CaseTables, isActionInGroup T "GET".toList [("get".toList, [])] = some false) ∧
    (∀ T : CaseTables, toUpperCamel T "GET".toList = some "GET".toList) ∧
    (∀ T : CaseTables, toUpperCamel T "get".toList = some "Get".toList) :=
  ⟨fun _ => rfl, fun _ => rfl, fun _ => rfl⟩

/-- C11, amended: for every action `a` that is not empty and every key `k` of
the groups, all of whose keys are not empty, when `a` and `k` differ at most in
the case of letters `[A-Za-z]` that stand first or immediately after a
separator, `isActionInGroup(a, groups)` is true. -/
theorem C11_case_of_adjusted_letters (T : CaseTables) (a k : GoString)
    (groups : List (GoString × List GoString)) (ha : a ≠ [])
    (hg : ∀ e ∈ groups, e.1 ≠ []) (hv : caseVariantFrom none a k = true)
    (hk : k ∈ groups.map Prod.fst) :
    isActionInGroup T a groups = some true := by
  obtain ⟨b, hb, hiff⟩ := isActionInGroup_iff T a ha groups hg
  obtain ⟨e, he, hek⟩ := List.mem_map.mp hk
  have hm : matchesGroupKey T a groups :=
    ⟨e, he, by rw [hek]; exact (toUpperCamel_eq_of_caseVariant T a k hv).symm⟩
  rw [hb, hiff.mpr hm]

/-- C11, witness: the amended statement at the action `Get_item` and the group
key `get_Item`. -/
theorem C11_case_of_adjusted_letters_witness :
    "Get_item".toList ≠ [] ∧
    (∀ e ∈ [("get_Item".toList, ["get".toList])], e.1 ≠ []) ∧
    caseVariantFrom none "Get_item".toList "get_Item".toList = true ∧
    "get_Item".toList ∈ [("get_Item".toList, ["get".toList])].map Prod.fst ∧
    isActionInGroup asciiOnlyTables "Get_item".toList [("get_Item".toList, ["get".toList])]
      = some true :=
  ⟨by decide, by decide, by decide, by decide,
    C11_case_of_adjusted_letters asciiOnlyTables "Get_item".toList "get_Item".toList
      [("get_Item".toList, ["get".toList])] (by decide) (by decide) (by decide) (by decide)⟩

/-! ## C12: the separators in the comparison -/

theorem dashesToUnderscores_eq_of_separatorVariant {a b : GoString}
    (h : separatorVariant a b) : dashesToUnderscores a = dashesToUnderscores b := by
  unfold separatorVariant at h
  induction h with
  | nil => rfl
  | @cons c d cs ds hcd _ ih =>
    have hhead : (if c = '-' then '_' else c) = (if d = '-' then '_' else d) := by
      rcases hcd with rfl | ⟨hc, hd⟩
      · rfl
      · simp only [isSeparator, Bool.or_eq_true, decide_eq_true_eq] at hc hd
        rcases hc with rfl | rfl <;> rcases hd with rfl | rfl <;> decide
    simp only [dashesToUnderscores] at ih
    simp only [dashesToUnderscores, List.map_cons, hhead, ih]

/-- Two names that differ at most in their separators have the same public
form. -/
theorem toUpperCamel_eq_of_separatorVariant (T : CaseTables) {a b : GoString}
    (h : separatorVariant a b) : toUpperCamel T a = toUpperCamel T b := by
  unfold toUpperCamel dashToCamelCase
  rw [dashesToUnderscores_eq_of_separatorVariant h]

/-- The answer of `isActionInGroup` depends on the action and on the keys
through their public forms only. -/
theorem isActionInGroup_congr (T : CaseTables) (a b : GoString)
    (hab : toUpperCamel T a = toUpperCamel T b) :
    ∀ (groups others : List (GoString × List GoString)),
      List.Forall₂ (fun e f => toUpperCamel T e.1 = toUpperCamel T f.1) groups others →
      isActionInGroup T a groups = isActionInGroup T b others := by
  intro groups others h
  induction h with
  | nil => rfl
  | @cons e f es fs hef _ ih =>
    obtain ⟨k1, v1⟩ := e
    obtain ⟨k2, v2⟩ := f
    unfold toUpperCamel at hab hef
    simp only at hef
    simp only [isActionInGroup, hab, hef, ih]

/-- C12: for every action `a` that is not empty and every list of groups whose
keys are not empty, `isActionInGroup` returns, and returns the same answer on
an action and on group keys that differ from the given ones at most in that a
dash stands for an underscore or an underscore for a dash; in particular it is
true on `get-item` when `get_item` is a group key, and on `get_item` when
`get-item` is one. -/
theorem C12_separator_insensitive (T : CaseTables) (a b : GoString)
    (groups others : List (GoString × List GoString)) (ha : a ≠ [])
    (hg : ∀ e ∈ groups, e.1 ≠ []) (hab : separatorVariant a b)
    (hgo : List.Forall₂ (fun e f => separatorVariant e.1 f.1) groups others) :
    (∃ r, isActionInGroup T a groups = some r ∧ isActionInGroup T b others = some r) ∧
    (∀ gs : List (GoString × List GoString), (∀ e ∈ gs, e.1 ≠ []) →
      "get_item".toList ∈ gs.map Prod.fst →
      isActionInGroup T "get-item".toList gs = some true) ∧
    (∀ gs : List (GoString × List GoString), (∀ e ∈ gs, e.1 ≠ []) →
      "get-item".toList ∈ gs.map Prod.fst →
      isActionInGroup T "get_item".toList gs = some true) := by
  refine ⟨?_, ?_, ?_⟩
  · obtain ⟨r, hr, _⟩ := isActionInGroup_iff T a ha groups hg
    refine ⟨r, hr, ?_⟩
    rw [← isActionInGroup_congr T a b (toUpperCamel_eq_of_separatorVariant T hab) groups others
      (hgo.imp (fun e f h => toUpperCamel_eq_of_separatorVariant T h))]
    exact hr
  · intro gs hgs hmem
    obtain ⟨r, hr, hiff⟩ := isActionInGroup_iff T "get-item".toList (by decide) gs hgs
    obtain ⟨e, he, hek⟩ := List.mem_map.mp hmem
    have hm : matchesGroupKey T "get-item".toList gs := ⟨e, he, by rw [hek]; rfl⟩
    rw [hr, hiff.mpr hm]
  · intro gs hgs hmem
    obtain ⟨r, hr, hiff⟩ := isActionInGroup_iff T "get_item".toList (by decide) gs hgs
    obtain ⟨e, he, hek⟩ := List.mem_map.mp hmem
    have hm : matchesGroupKey T "get_item".toList gs := ⟨e, he, by rw [hek]; rfl⟩
    rw [hr, hiff.mpr hm]

theorem separatorVariant_get_item :
    separatorVariant "get-item".toList "get_item".toList := by
  unfold separatorVariant
  decide

/-- C12, witness: the statement at the action `get-item` against the group key
`get_item`, and at the action `get_item` against the group key `get-item`. -/
theorem C12_separator_insensitive_witness :
    "get-item".toList ≠ [] ∧
    (∀ e ∈ [("get_item".toList, ["get".toList])], e.1 ≠ []) ∧
    separatorVariant "get-item".toList "get_item".toList ∧
    List.Forall₂ (fun e f => separatorVariant e.1 f.1)
      [("get_item".toList, ["get".toList])] [("get-item".toList, ["get".toList])] ∧
    isActionInGroup asciiOnlyTables "get-item".toList [("get_item".toList, ["get".toList])]
      = some true ∧
    ((∃ r, isActionInGroup asciiOnlyTables "get-item".toList
          [("get_item".toList, ["get".toList])] = some r ∧
        isActionInGroup asciiOnlyTables "get_item".toList
          [("get-item".toList, ["get".toList])] = some r) ∧
      (∀ gs : List (GoString × List GoString), (∀ e ∈ gs, e.1 ≠ []) →
        "get_item".toList ∈ gs.map Prod.fst →
        isActionInGroup asciiOnlyTables "get-item".toList gs = some true) ∧
      (∀ gs : List (GoString × List GoString), (∀ e ∈ gs, e.1 ≠ []) →
        "get-item".toList ∈ gs.map Prod.fst →
        isActionInGroup asciiOnlyTables "get_item".toList gs = some true)) := by
  have hv : separatorVariant "get_item".toList "get-item".toList := by
    unfold separatorVariant
    decide
  exact ⟨by decide, by decide, separatorVariant_get_item,
    List.Forall₂.cons hv List.Forall₂.nil, rfl,
    C12_separator_insensitive asciiOnlyTables "get-item".toList "get_item".toList
      [("get_item".toList, ["get".toList])] [("get-item".toList, ["get".toList])]
      (by decide) (by decide) separatorVariant_get_item
      (List.Forall₂.cons hv List.Forall₂.nil)⟩

/-! ## C13: empty names -/

theorem groupNameActions_some (T : CaseTables) :
    ∀ (acts : List GoString) (acc l : List namePolicies),
      groupNameActions T acc acts = some l → ∀ a ∈ acts, a ≠ [] := by
  intro acts
  induction acts with
  | nil => intro _ _ _ a ha; cases ha
  | cons x rest ih =>
    intro acc l h a ha
    simp only [groupNameActions, Option.bind_eq_bind] at h
    cases hx : newNamePolicies T x with
    | none => simp [hx] at h
    | some q =>
      simp only [hx, Option.some_bind] at h
      rcases List.mem_cons.mp ha with rfl | ha
      · exact ne_nil_of_newNamePolicies hx
      · exact ih _ l h a ha

theorem resourceNameActions_some (T : CaseTables) (groups : List (GoString × List GoString)) :
    ∀ (acts : List GoString) (acc l : List namePolicies),
      resourceNameActions T groups acc acts = some l → ∀ a ∈ acts, a ≠ [] := by
  intro acts
  induction acts with
  | nil => intro _ _ _ a ha; cases ha
  | cons x rest ih =>
    intro acc l h a ha
    simp only [resourceNameActions, Option.bind_eq_bind] at h
    cases hx : newNamePolicies T x with
    | none => simp [hx] at h
    | some q =>
      cases hb : isActionInGroup T x groups with
      | none => simp [hx, hb] at h
      | some b =>
        simp only [hx, hb, Option.some_bind] at h
        rcases List.mem_cons.mp ha with rfl | ha
        · exact ne_nil_of_newNamePolicies hx
        · exact ih _ l h a ha

/-- When the loop over a section returns, every key of the section is a name
that is not empty and the inner loop has returned on every action list. -/
theorem sectionLoop_some (T : CaseTables) (inner : List GoString → Option (List namePolicies)) :
    ∀ (entries : List (GoString × List GoString))
      (out res : List (namePolicies × List namePolicies)),
      sectionLoop T inner out entries = some res →
      ∀ e ∈ entries, e.1 ≠ [] ∧ ∃ l, inner e.2 = some l := by
  intro entries
  induction entries with
  | nil => intro _ _ _ e he; cases he
  | cons x rest ih =>
    intro out res h e he
    obtain ⟨key, acts⟩ := x
    simp only [sectionLoop, Option.bind_eq_bind] at h
    cases hin : inner acts with
    | none => simp [hin] at h
    | some na =>
      cases hk : newNamePolicies T key with
      | none => simp [hin, hk] at h
      | some kn =>
        simp only [hin, hk, Option.some_bind] at h
        rcases List.mem_cons.mp he with rfl | he
        · exact ⟨ne_nil_of_newNamePolicies hk, na, hin⟩
        · exact ih _ res h e he

/-- The builder returns only on a configuration whose names are not empty. -/
theorem namesNonEmpty_of_convert (T : CaseTables) (cfg : policiesConfig)
    (out : templateDataGenerate) (h : convertConfigToTemplateData T cfg = some out) :
    configNamesNonEmpty cfg := by
  simp only [convertConfigToTemplateData, groupsLoop_eq_sectionLoop,
    resourcesLoop_eq_sectionLoop, Option.bind_eq_bind] at h
  cases hg : sectionLoop T (groupNameActions T []) [] cfg.Groups with
  | none => simp [hg] at h
  | some g =>
    cases hr : sectionLoop T (resourceNameActions T cfg.Groups []) [] cfg.ResourceConfig with
    | none => simp [hg, hr] at h
    | some r =>
      constructor
      · intro e he
        obtain ⟨h1, l, hl⟩ := sectionLoop_some T _ _ _ _ hg e he
        exact ⟨h1, groupNameActions_some T e.2 [] l hl⟩
      · intro e he
        obtain ⟨h1, l, hl⟩ := sectionLoop_some T _ _ _ _ hr e he
        exact ⟨h1, resourceNameActions_some T cfg.Groups e.2 [] l hl⟩

/-- C13: whenever a group key, a group action, a resource key or a resource
action of the configuration is the empty string, the builder does not return a
value: the run ends in the panic of `capitalize` or `unCapitalize` on the empty
string. -/
theorem C13_empty_name_fails (T : CaseTables) (cfg : policiesConfig)
    (h : (∃ e ∈ cfg.Groups, e.1 = [] ∨ [] ∈ e.2) ∨
         (∃ e ∈ cfg.ResourceConfig, e.1 = [] ∨ [] ∈ e.2)) :
    convertConfigToTemplateData T cfg = none ∧
    capitalize T [] = none ∧ unCapitalize T [] = none := by
  refine ⟨?_, rfl, rfl⟩
  cases hc : convertConfigToTemplateData T cfg with
  | none => rfl
  | some out =>
    exfalso
    obtain ⟨hG, hR⟩ := namesNonEmpty_of_convert T cfg out hc
    rcases h with ⟨e, he, h1 | h1⟩ | ⟨e, he, h1 | h1⟩
    · exact (hG e he).1 h1
    · exact (hG e he).2 [] h1 rfl
    · exact (hR e he).1 h1
    · exact (hR e he).2 [] h1 rfl

/-- C13, witness: the statement at a configuration whose resource `book` lists
an empty action. -/
theorem C13_empty_name_fails_witness :
    ((∃ e ∈ emptyActionConfig.Groups, e.1 = [] ∨ [] ∈ e.2) ∨
      (∃ e ∈ emptyActionConfig.ResourceConfig, e.1 = [] ∨ [] ∈ e.2)) ∧
    (convertConfigToTemplateData asciiOnlyTables emptyActionConfig = none ∧
      capitalize asciiOnlyTables [] = none ∧ unCapitalize asciiOnlyTables [] = none) :=
  ⟨by decide, C13_empty_name_fails asciiOnlyTables emptyActionConfig (by decide)⟩

/-! ## C14: where a type hint can stand -/

theorem type_of_newNamePolicies {T : CaseTables} {s : GoString} {p : namePolicies}
    (h : newNamePolicies T s = some p) : p.Type_ = [] := by
  obtain ⟨q, hq, _, _, hty⟩ := newNamePolicies_of_ne_nil T s (ne_nil_of_newNamePolicies h)
  rw [h] at hq
  cases hq
  exact hty

/-- Every entry of the output `Groups` is built from a group of the
configuration: its key is the pair of the group key and its list holds the pairs
of the actions, in their order. -/
theorem convert_groups_mem (T : CaseTables) (cfg : policiesConfig)
    (hne : configNamesNonEmpty cfg) (out : templateDataGenerate)
    (hout : convertConfigToTemplateData T cfg = some out) :
    ∀ x ∈ out.Groups, ∃ e ∈ cfg.Groups,
      newNamePolicies T e.1 = some x.1 ∧
      List.Forall₂ (fun a p => newNamePolicies T a = some p) e.2 x.2 := by
  obtain ⟨g, r, hg, _, hout2⟩ := convert_of_namesNonEmpty T cfg hne
  rw [hout] at hout2
  cases hout2
  intro x hx
  obtain ⟨res, hres, hmem⟩ := sectionLoop_spec T (groupNameActions T [])
    cfg.Groups [] (fun e he => ⟨(hne.1 e he).1, by
      obtain ⟨l, hl, _⟩ := groupNameActions_spec T e.2 [] (hne.1 e he).2
      exact ⟨_, hl⟩⟩)
  rw [hg] at hres
  cases hres
  rcases hmem x hx with h | ⟨e, he, h1, h2⟩
  · cases h
  · refine ⟨e, he, h1, ?_⟩
    obtain ⟨l, hl, hf⟩ := groupNameActions_spec T e.2 [] (hne.1 e he).2
    rw [h2] at hl
    have : x.2 = l := by simpa using hl
    rw [this]
    exact hf

theorem forall_mem_of_forall₂ {α β : Type} {R : α → β → Prop} {P : β → Prop}
    (hR : ∀ a b, R a b → P b) {l₁ : List α} {l₂ : List β} (h : List.Forall₂ R l₁ l₂) :
    ∀ b ∈ l₂, P b := by
  induction h with
  | nil => intro b hb; cases hb
  | @cons a b l₁ l₂ hab _ ih =>
    intro x hx
    rcases List.mem_cons.mp hx with rfl | hx
    · exact hR a _ hab
    · exact ih x hx

/-- C14: on a configuration whose names are not empty the builder returns; in
the output `Groups` every key and every member pair has an empty `Type`; in the
output `Resources` every key has an empty `Type`, and an action pair has the
`Type` empty or `"string"`. -/
theorem C14_type_hint_only_on_resource_actions (T : CaseTables) (cfg : policiesConfig)
    (hne : configNamesNonEmpty cfg) :
    ∃ out, convertConfigToTemplateData T cfg = some out ∧
      (∀ x ∈ out.Groups, x.1.Type_ = [] ∧ ∀ p ∈ x.2, p.Type_ = []) ∧
      (∀ x ∈ out.Resources, x.1.Type_ = [] ∧
        ∀ p ∈ x.2, p.Type_ = [] ∨ p.Type_ = "string".toList) := by
  have hgk : ∀ e ∈ cfg.Groups, e.1 ≠ [] := fun e he => (hne.1 e he).1
  obtain ⟨g, r, _, _, hout⟩ := convert_of_namesNonEmpty T cfg hne
  refine ⟨_, hout, fun x hx => ?_, fun x hx => ?_⟩
  · obtain ⟨e, _, h1, hf⟩ := convert_groups_mem T cfg hne _ hout x hx
    exact ⟨type_of_newNamePolicies h1,
      forall_mem_of_forall₂ (fun a p h => type_of_newNamePolicies h) hf⟩
  · obtain ⟨e, _, h1, _, hf⟩ := convert_resources_mem T cfg hne _ hout x hx
    refine ⟨type_of_newNamePolicies h1, forall_mem_of_forall₂ (fun a p h => ?_) hf⟩
    have ht := builtFromResourceAction_type T cfg.Groups hgk a p h
    by_cases hm : matchesGroupKey T a cfg.Groups
    · exact Or.inl (ht.2.mpr hm)
    · exact Or.inr (ht.1.mpr hm)

/-- C14, witness: the statement at the configuration of the first scenario. -/
theorem C14_type_hint_only_on_resource_actions_witness :
    configNamesNonEmpty scenarioOne ∧
    ∃ out, convertConfigToTemplateData asciiOnlyTables scenarioOne = some out ∧
      (∀ x ∈ out.Groups, x.1.Type_ = [] ∧ ∀ p ∈ x.2, p.Type_ = []) ∧
      (∀ x ∈ out.Resources, x.1.Type_ = [] ∧
        ∀ p ∈ x.2, p.Type_ = [] ∨ p.Type_ = "string".toList) :=
  ⟨by decide, C14_type_hint_only_on_resource_actions asciiOnlyTables scenarioOne (by decide)⟩

/-! ## C15 and C16: the steps of `main` -/

/-- C15, counterexample: in the run on the first scenario in which only
`format.Source` fails, the output file has been created by the time of the
failure: `os.Create` stands before the building of the data in `main`. -/
theorem C15_counterexample :
    (∀ T : CaseTables,
      main T formatFailureEnv = ([mainEffect.readFile, mainEffect.createFile], mainExit.fatal)) ∧
    mainEffect.createFile ∈ [mainEffect.readFile, mainEffect.createFile] :=
  ⟨fun _ => rfl, by decide⟩

/-- C15, amended: in a run of `main` that reaches the execution of the template
(one positional argument, the configuration read and decoded, the output file
created, the data built, the template parsed), when `tmpl.Execute` or
`format.Source` fails the run ends in `log.Fatal` with nothing written to the
output file and no success message; the output file has been created before. -/
theorem C15_failure_writes_nothing (T : CaseTables) (env : mainEnv) (config : policiesConfig)
    (data : templateDataGenerate) (hargs : env.args.length = 2) (habs : env.absOk = true)
    (hread : env.readOk = true) (hcfg : env.config = some config)
    (hcreate : env.createOk = true)
    (hdata : convertConfigToTemplateData T config = some data)
    (htmpl : env.templateOk = true)
    (hfail : env.executeOk data = false ∨ env.formatOk = false) :
    main T env = ([mainEffect.readFile, mainEffect.createFile], mainExit.fatal) ∧
    mainEffect.writeFile ∉ (main T env).1 ∧ mainEffect.printSuccess ∉ (main T env).1 ∧
    mainEffect.createFile ∈ (main T env).1 := by
  have hm : main T env = ([mainEffect.readFile, mainEffect.createFile], mainExit.fatal) := by
    unfold main
    rcases hfail with h | h
    · simp [hargs, habs, hread, hcfg, hcreate, hdata, htmpl, h]
    · cases he : env.executeOk data <;>
        simp [hargs, habs, hread, hcfg, hcreate, hdata, htmpl, h, he]
  rw [hm]
  exact ⟨rfl, by decide, by decide, by decide⟩

/-- C15, witness: the amended statement at the run on the first scenario in
which only `format.Source` fails. -/
theorem C15_failure_writes_nothing_witness :
    ∃ data, convertConfigToTemplateData asciiOnlyTables scenarioOne = some data ∧
      formatFailureEnv.args.length = 2 ∧
      (formatFailureEnv.executeOk data = false ∨ formatFailureEnv.formatOk = false) ∧
      (main asciiOnlyTables formatFailureEnv
          = ([mainEffect.readFile, mainEffect.createFile], mainExit.fatal) ∧
        mainEffect.writeFile ∉ (main asciiOnlyTables formatFailureEnv).1 ∧
        mainEffect.printSuccess ∉ (main asciiOnlyTables formatFailureEnv).1 ∧
        mainEffect.createFile ∈ (main asciiOnlyTables formatFailureEnv).1) :=
  ⟨_, rfl, rfl, Or.inr rfl,
    C15_failure_writes_nothing asciiOnlyTables formatFailureEnv scenarioOne _ rfl rfl rfl rfl
      rfl rfl rfl (Or.inr rfl)⟩

/-- C16: for every argument vector whose number of positional arguments (the
arguments after the program name) is not one, `main` ends in the fatal error
`invalid arguments` with no effect: the configuration has not been read and no
output file has been created. -/
theorem C16_usage_error (T : CaseTables) (env : mainEnv)
    (h : env.args.tail.length ≠ 1) :
    main T env = ([], mainExit.fatalInvalidArguments) ∧
    mainEffect.readFile ∉ (main T env).1 ∧ mainEffect.createFile ∉ (main T env).1 := by
  have hlen : env.args.length ≠ 2 := by
    intro h2
    apply h
    rw [List.length_tail, h2]
  have hm : main T env = ([], mainExit.fatalInvalidArguments) := by
    unfold main
    simp [hlen]
  rw [hm]
  exact ⟨rfl, by simp, by simp⟩

/-- C16, witness: the statement at a run without positional argument and at a
run with two of them, every library call of which would succeed. -/
theorem C16_usage_error_witness :
    (allOkEnv ["policies_gen".toList]).args.tail.length ≠ 1 ∧
    (allOkEnv ["policies_gen".toList, "a.yaml".toList, "b.yaml".toList]).args.tail.length ≠ 1 ∧
    (main asciiOnlyTables (allOkEnv ["policies_gen".toList])
        = ([], mainExit.fatalInvalidArguments) ∧
      mainEffect.readFile ∉ (main asciiOnlyTables (allOkEnv ["policies_gen".toList])).1 ∧
      mainEffect.createFile ∉ (main asciiOnlyTables (allOkEnv ["policies_gen".toList])).1) ∧
    main asciiOnlyTables (allOkEnv ["policies_gen".toList, "a.yaml".toList, "b.yaml".toList])
      = ([], mainExit.fatalInvalidArguments) ∧
    main asciiOnlyTables (allOkEnv ["policies_gen".toList, "a.yaml".toList])
      = ([mainEffect.readFile, mainEffect.createFile, mainEffect.writeFile,
          mainEffect.printSuccess], mainExit.success) :=
  ⟨by decide, by decide,
    C16_usage_error asciiOnlyTables (allOkEnv ["policies_gen".toList]) (by decide),
    rfl, rfl⟩

/-! ## C17: the builder on names that are not empty -/

/-- C17: on every configuration whose names are not empty the builder returns a
value, with the package name copied: the composite literal is built from every
key and every action without a panic, and `isActionInGroup` returns on every
resource action. Empty maps and empty action lists are among these
configurations: on a configuration without groups and without resources the
builder returns the two empty maps. -/
theorem C17_total_on_nonempty_names (T : CaseTables) (cfg : policiesConfig)
    (hne : configNamesNonEmpty cfg) :
    (∃ out, convertConfigToTemplateData T cfg = some out ∧ out.Package = cfg.Package) ∧
    (∀ e ∈ cfg.Groups ++ cfg.ResourceConfig,
      (∃ p, newNamePolicies T e.1 = some p) ∧ ∀ a ∈ e.2, ∃ p, newNamePolicies T a = some p) ∧
    (∀ e ∈ cfg.ResourceConfig, ∀ a ∈ e.2, ∃ b, isActionInGroup T a cfg.Groups = some b) ∧
    (∀ f o t p : GoString,
      convertConfigToTemplateData T ⟨f, o, t, p, [], []⟩ = some ⟨[], [], p⟩) := by
  have hgk : ∀ e ∈ cfg.Groups, e.1 ≠ [] := fun e he => (hne.1 e he).1
  obtain ⟨g, r, _, _, hout⟩ := convert_of_namesNonEmpty T cfg hne
  refine ⟨⟨_, hout, rfl⟩, ?_, ?_, fun _ _ _ _ => rfl⟩
  · intro e he
    have hen : e.1 ≠ [] ∧ ∀ a ∈ e.2, a ≠ [] := by
      rcases List.mem_append.mp he with h | h
      · exact hne.1 e h
      · exact hne.2 e h
    refine ⟨?_, fun a ha => ?_⟩
    · obtain ⟨p, hp, _⟩ := newNamePolicies_of_ne_nil T e.1 hen.1
      exact ⟨p, hp⟩
    · obtain ⟨p, hp, _⟩ := newNamePolicies_of_ne_nil T a (hen.2 a ha)
      exact ⟨p, hp⟩
  · intro e he a ha
    obtain ⟨b, hb, _⟩ := isActionInGroup_iff T a ((hne.2 e he).2 a ha) cfg.Groups hgk
    exact ⟨b, hb⟩

/-- C17, witness: the statement at a configuration without groups whose only
resource has an empty action list. -/
theorem C17_total_on_nonempty_names_witness :
    configNamesNonEmpty emptyListsConfig ∧
    convertConfigToTemplateData asciiOnlyTables emptyListsConfig
      = some ⟨[], [(bookPair, [])], "policies".toList⟩ ∧
    ((∃ out, convertConfigToTemplateData asciiOnlyTables emptyListsConfig = some out ∧
        out.Package = emptyListsConfig.Package) ∧
      (∀ e ∈ emptyListsConfig.Groups ++ emptyListsConfig.ResourceConfig,
        (∃ p, newNamePolicies asciiOnlyTables e.1 = some p) ∧
        ∀ a ∈ e.2, ∃ p, newNamePolicies asciiOnlyTables a = some p) ∧
      (∀ e ∈ emptyListsConfig.ResourceConfig, ∀ a ∈ e.2,
        ∃ b, isActionInGroup asciiOnlyTables a emptyListsConfig.Groups = some b) ∧
      (∀ f o t p : GoString,
        convertConfigToTemplateData asciiOnlyTables ⟨f, o, t, p, [], []⟩
          = some ⟨[], [], p⟩)) :=
  ⟨by decide, rfl, C17_total_on_nonempty_names asciiOnlyTables emptyListsConfig (by decide)⟩

/-! ## C19: what the public form keeps of a name -/

theorem norm_cons (T : CaseTables) (c : Char) (l : GoString) :
    stringsToLower T (deleteSeparators (c :: l))
      = if isSeparator c = true then stringsToLower T (deleteSeparators l)
        else unicodeToLower T c :: stringsToLower T (deleteSeparators l) := by
  cases h : isSeparator c <;> simp [stringsToLower, deleteSeparators, List.filter_cons, h]

/-- The scan of `link` keeps the letters of a text up to their case, adds no
rune, and every rune of its result is a rune of the text or one of `A`..`Z`. -/
theorem scan_norm (T : CaseTables) :
    ∀ (n : Nat) (l : GoString) (b : Bool), l.length ≤ n →
      stringsToLower T (deleteSeparators
          (linkReplaceAllStringFunc (upperWithoutUnderscores T) b l))
        = stringsToLower T (deleteSeparators l) ∧
      (linkReplaceAllStringFunc (upperWithoutUnderscores T) b l).length ≤ l.length ∧
      ∀ x ∈ linkReplaceAllStringFunc (upperWithoutUnderscores T) b l,
        x ∈ l ∨ isAsciiUpper x = true := by
  intro n
  induction n with
  | zero =>
    intro l b hl
    have : l = [] := List.length_eq_zero.mp (Nat.le_zero.mp hl)
    subst this
    simp [linkReplaceAllStringFunc]
  | succ n ih =>
    intro l b hl
    cases l with
    | nil => simp [linkReplaceAllStringFunc]
    | cons c rest =>
      have hlen : rest.length ≤ n := by simpa using hl
      have hupper : ∀ d : Char, isLinkLetter d = true →
          isSeparator (unicodeToUpper T d) = false := fun d hd =>
        isSeparator_of_isAsciiUpper (isAsciiUpper_unicodeToUpper T hd)
      by_cases hA : c = '_' ∧ startsWithLetter rest = true
      · obtain ⟨rfl, hst⟩ := hA
        cases rest with
        | nil => simp [startsWithLetter] at hst
        | cons d rest2 =>
          have hdl : isLinkLetter d = true := by simpa [startsWithLetter] using hst
          have hlen2 : rest2.length ≤ n := by
            simp at hlen; omega
          obtain ⟨h1, h2, h3⟩ := ih rest2 false hlen2
          have hsu : isSeparator '_' = true := by decide
          rw [scan_underscore_letter T b rest2 hdl]
          refine ⟨?_, ?_, ?_⟩
          · rw [norm_cons, norm_cons, norm_cons, h1]
            simp [hupper d hdl, hsu, isSeparator_of_isLinkLetter hdl,
              unicodeToLower_unicodeToUpper_letter T hdl]
          · simp only [List.length_cons]; omega
          · intro x hx
            rcases List.mem_cons.mp hx with rfl | hx
            · exact Or.inr (isAsciiUpper_unicodeToUpper T hdl)
            · rcases h3 x hx with h | h
              · exact Or.inl (List.mem_cons_of_mem _ (List.mem_cons_of_mem _ h))
              · exact Or.inr h
      · obtain ⟨h1, h2, h3⟩ := ih rest false hlen
        by_cases hB : b = true ∧ isLinkLetter c = true
        · obtain ⟨rfl, hl2⟩ := hB
          rw [scan_start_letter T rest hl2]
          refine ⟨?_, ?_, ?_⟩
          · rw [norm_cons, norm_cons, h1]
            simp [hupper c hl2, isSeparator_of_isLinkLetter hl2,
              unicodeToLower_unicodeToUpper_letter T hl2]
          · simp only [List.length_cons]; omega
          · intro x hx
            rcases List.mem_cons.mp hx with rfl | hx
            · exact Or.inr (isAsciiUpper_unicodeToUpper T hl2)
            · rcases h3 x hx with h | h
              · exact Or.inl (List.mem_cons_of_mem _ h)
              · exact Or.inr h
        · rw [scan_copy T b c rest hB hA]
          refine ⟨?_, ?_, ?_⟩
          · rw [norm_cons, norm_cons, h1]
          · simp only [List.length_cons]; omega
          · intro x hx
            rcases List.mem_cons.mp hx with rfl | hx
            · exact Or.inl (List.mem_cons_self _ _)
            · rcases h3 x hx with h | h
              · exact Or.inl (List.mem_cons_of_mem _ h)
              · exact Or.inr h

theorem deleteSeparators_dashesToUnderscores (s : GoString) :
    deleteSeparators (dashesToUnderscores s) = deleteSeparators s := by
  induction s with
  | nil => rfl
  | cons c rest ih =>
    simp only [deleteSeparators, dashesToUnderscores] at ih
    by_cases h : c = '-'
    · subst h
      have h1 : isSeparator '-' = true := by decide
      have h2 : isSeparator '_' = true := by decide
      simp [deleteSeparators, dashesToUnderscores, List.filter_cons, h1, h2, ih]
    · simp [deleteSeparators, dashesToUnderscores, List.filter_cons, h, ih]

theorem isSeparator_unicodeToUpper_ascii (T : CaseTables) (r : Char) (h : r.toNat ≤ 0x7F) :
    isSeparator (unicodeToUpper T r) = isSeparator r := by
  have hn := toNat_unicodeToUpper_ascii T r h
  have h1 := isSeparator_iff (unicodeToUpper T r)
  have h2 := isSeparator_iff r
  cases hs : isSeparator (unicodeToUpper T r) <;> cases hr : isSeparator r <;>
    simp only [hs, hr, Bool.false_eq_true, false_iff, true_iff] at h1 h2 ⊢ <;>
    (split_ifs at hn <;> omega)

theorem unicodeToLower_unicodeToUpper_ascii (T : CaseTables) (r : Char) (h : r.toNat ≤ 0x7F) :
    unicodeToLower T (unicodeToUpper T r) = unicodeToLower T r := by
  have h1 := toNat_unicodeToUpper_ascii T r h
  have h2 : (unicodeToUpper T r).toNat ≤ 0x7F := by
    rw [h1]; split <;> omega
  apply char_eq_of_toNat
  rw [toNat_unicodeToLower_ascii T _ h2, toNat_unicodeToLower_ascii T _ h, h1]
  split_ifs <;> omega

/-- C19: for every name `s` that is not empty and holds ASCII runes only, the
public form `u` of `s` is built; deleting every dash and underscore from `u`
and lower-casing gives what deleting every dash and underscore from `s` and
lower-casing gives; and `u` is not longer than `s`. -/
theorem C19_public_form_keeps_letters (T : CaseTables) (s : GoString) (hne : s ≠ [])
    (hascii : ∀ c ∈ s, c.toNat ≤ 0x7F) :
    ∃ u, toUpperCamel T s = some u ∧
      stringsToLower T (deleteSeparators u) = stringsToLower T (deleteSeparators s) ∧
      u.length ≤ s.length := by
  obtain ⟨h1, h2, h3⟩ := scan_norm T _ (dashesToUnderscores s) true (Nat.le_refl _)
  change stringsToLower T (deleteSeparators (dashToCamelCase T s)) = _ at h1
  change (dashToCamelCase T s).length ≤ _ at h2
  change ∀ x ∈ dashToCamelCase T s, _ at h3
  rw [deleteSeparators_dashesToUnderscores] at h1
  have hlen : (dashesToUnderscores s).length = s.length := by simp [dashesToUnderscores]
  rw [hlen] at h2
  have hnn := dashToCamelCase_ne_nil T s hne
  unfold toUpperCamel
  cases hd : dashToCamelCase T s with
  | nil => exact absurd hd hnn
  | cons r0 r =>
    rw [hd] at h1 h2 h3
    have hr0 : r0.toNat ≤ 0x7F := by
      rcases h3 r0 (List.mem_cons_self _ _) with h | h
      · simp only [dashesToUnderscores, List.mem_map] at h
        obtain ⟨a, ha, rfl⟩ := h
        by_cases hda : a = '-'
        · subst hda; decide
        · simp only [hda, if_false]; exact hascii a ha
      · rw [isAsciiUpper_iff] at h; omega
    refine ⟨unicodeToUpper T r0 :: r, rfl, ?_, by simpa using h2⟩
    rw [← h1, norm_cons, norm_cons, isSeparator_unicodeToUpper_ascii T r0 hr0,
      unicodeToLower_unicodeToUpper_ascii T r0 hr0]

/-- C19, witness: the statement at the name `get-item_2`. -/
theorem C19_public_form_keeps_letters_witness :
    "get-item_2".toList ≠ [] ∧ (∀ c ∈ "get-item_2".toList, c.toNat ≤ 0x7F) ∧
    toUpperCamel asciiOnlyTables "get-item_2".toList = some "GetItem_2".toList ∧
    ∃ u, toUpperCamel asciiOnlyTables "get-item_2".toList = some u ∧
      stringsToLower asciiOnlyTables (deleteSeparators u)
        = stringsToLower asciiOnlyTables (deleteSeparators "get-item_2".toList) ∧
      u.length ≤ "get-item_2".toList.length :=
  ⟨by decide, by decide, rfl,
    C19_public_form_keeps_letters asciiOnlyTables "get-item_2".toList (by decide) (by decide)⟩

/-! ## C18: the keys of the output maps -/

theorem keys_mapAssign (m : List (namePolicies × List namePolicies)) (k : namePolicies)
    (v : List namePolicies) :
    (mapAssign m k v).map Prod.fst
      = if k ∈ m.map Prod.fst then m.map Prod.fst else m.map Prod.fst ++ [k] := by
  induction m with
  | nil => simp [mapAssign]
  | cons e rest ih =>
    obtain ⟨k0, v0⟩ := e
    by_cases h : k0 = k
    · subst h
      simp [mapAssign]
    · have hk : k ≠ k0 := fun h2 => h h2.symm
      by_cases hmem : k ∈ rest.map Prod.fst
      · rw [if_pos hmem] at ih
        have hmem2 : k ∈ ((k0, v0) :: rest).map Prod.fst := by
          rw [List.map_cons]; exact List.mem_cons_of_mem _ hmem
        rw [if_pos hmem2]
        simp only [mapAssign, h, if_false, List.map_cons, ih]
      · rw [if_neg hmem] at ih
        have hmem2 : k ∉ ((k0, v0) :: rest).map Prod.fst := by
          rw [List.map_cons]
          intro h2
          rcases List.mem_cons.mp h2 with h2 | h2
          · exact hk h2
          · exact hmem h2
        rw [if_neg hmem2]
        simp only [mapAssign, h, if_false, List.map_cons, ih, List.cons_append]

theorem mem_keys_mapAssign (m : List (namePolicies × List namePolicies)) (k x : namePolicies)
    (v : List namePolicies) :
    x ∈ (mapAssign m k v).map Prod.fst ↔ x ∈ m.map Prod.fst ∨ x = k := by
  rw [keys_mapAssign]
  by_cases h : k ∈ m.map Prod.fst
  · rw [if_pos h]
    constructor
    · exact Or.inl
    · rintro (h1 | rfl)
      · exact h1
      · exact h
  · rw [if_neg h]
    simp

theorem nodup_keys_mapAssign (m : List (namePolicies × List namePolicies)) (k : namePolicies)
    (v : List namePolicies) (h : (m.map Prod.fst).Nodup) :
    ((mapAssign m k v).map Prod.fst).Nodup := by
  rw [keys_mapAssign]
  by_cases hk : k ∈ m.map Prod.fst
  · rw [if_pos hk]; exact h
  · rw [if_neg hk]
    rw [List.nodup_append]
    refine ⟨h, List.nodup_singleton _, ?_⟩
    intro a ha hb
    rw [List.mem_singleton] at hb
    subst hb
    exact hk ha

theorem length_mapAssign (m : List (namePolicies × List namePolicies)) (k : namePolicies)
    (v : List namePolicies) :
    (mapAssign m k v).length = if k ∈ m.map Prod.fst then m.length else m.length + 1 := by
  have h := congrArg List.length (keys_mapAssign m k v)
  rw [List.length_map] at h
  rw [h]
  split <;> simp

/-- The keys of the map the loop over a section returns: the keys of the map it
started from and the pairs of the keys of the section, each once; the map grows
by at most one entry per entry of the section, and by fewer when a pair is
already a key or when two entries of the section have the same pair. -/
theorem sectionLoop_keys (T : CaseTables) (inner : List GoString → Option (List namePolicies)) :
    ∀ (entries : List (GoString × List GoString))
      (out res : List (namePolicies × List namePolicies)),
      sectionLoop T inner out entries = some res →
      (∀ kn, kn ∈ res.map Prod.fst ↔
        kn ∈ out.map Prod.fst ∨ ∃ e ∈ entries, newNamePolicies T e.1 = some kn) ∧
      ((out.map Prod.fst).Nodup → (res.map Prod.fst).Nodup) ∧
      res.length ≤ out.length + entries.length ∧
      ((∃ e ∈ entries, ∃ kn ∈ out.map Prod.fst, newNamePolicies T e.1 = some kn) →
        res.length < out.length + entries.length) ∧
      (¬ entries.Pairwise (fun e1 e2 => newNamePolicies T e1.1 ≠ newNamePolicies T e2.1) →
        res.length < out.length + entries.length) := by
  intro entries
  induction entries with
  | nil =>
    intro out res h
    simp only [sectionLoop, Option.some.injEq] at h
    subst h
    refine ⟨fun kn => by simp, fun h => h, by simp, ?_, ?_⟩
    · rintro ⟨e, he, _⟩; cases he
    · intro h; exact absurd List.Pairwise.nil h
  | cons x rest ih =>
    intro out res h
    obtain ⟨key, acts⟩ := x
    simp only [sectionLoop, Option.bind_eq_bind] at h
    cases hin : inner acts with
    | none => simp [hin] at h
    | some na =>
      cases hk : newNamePolicies T key with
      | none => simp [hin, hk] at h
      | some kn0 =>
        simp only [hin, hk, Option.some_bind] at h
        obtain ⟨i1, i2, i3, i4, i5⟩ := ih (mapAssign out kn0 na) res h
        have hlen := length_mapAssign out kn0 na
        have hle : (mapAssign out kn0 na).length ≤ out.length + 1 := by
          rw [hlen]; split <;> omega
        have hkn0 : kn0 ∈ (mapAssign out kn0 na).map Prod.fst :=
          (mem_keys_mapAssign out kn0 kn0 na).mpr (Or.inr rfl)
        refine ⟨fun kn => ?_, fun hnd => i2 (nodup_keys_mapAssign out kn0 na hnd), ?_, ?_, ?_⟩
        · rw [i1 kn, mem_keys_mapAssign]
          constructor
          · rintro ((h1 | rfl) | ⟨e, he, h1⟩)
            · exact Or.inl h1
            · exact Or.inr ⟨(key, acts), List.mem_cons_self _ _, hk⟩
            · exact Or.inr ⟨e, List.mem_cons_of_mem _ he, h1⟩
          · rintro (h1 | ⟨e, he, h1⟩)
            · exact Or.inl (Or.inl h1)
            · rcases List.mem_cons.mp he with rfl | he
              · rw [hk] at h1
                exact Or.inl (Or.inr (Option.some.inj h1).symm)
              · exact Or.inr ⟨e, he, h1⟩
        · simp only [List.length_cons]; omega
        · rintro ⟨e, he, kn, hkn, hek⟩
          simp only [List.length_cons]
          rcases List.mem_cons.mp he with rfl | he
          · rw [hk] at hek
            cases hek
            rw [if_pos hkn] at hlen
            omega
          · have := i4 ⟨e, he, kn, (mem_keys_mapAssign out kn0 kn na).mpr (Or.inl hkn), hek⟩
            omega
        · intro hp
          simp only [List.length_cons]
          rw [List.pairwise_cons, not_and_or] at hp
          rcases hp with hp | hp
          · push_neg at hp
            obtain ⟨e, he, hee⟩ := hp
            simp only at hee
            rw [hk] at hee
            have := i4 ⟨e, he, kn0, hkn0, hee.symm⟩
            omega
          · have := i5 hp
            omega

theorem newNamePolicies_eq_some_iff (T : CaseTables) (s : GoString) (p : namePolicies) :
    newNamePolicies T s = some p ↔
      toLowerCamel T s = some p.Private ∧ toUpperCamel T s = some p.Public ∧ p.Type_ = [] := by
  constructor
  · intro h
    obtain ⟨q, hq, h1, h2, h3⟩ := newNamePolicies_of_ne_nil T s (ne_nil_of_newNamePolicies h)
    rw [h] at hq
    cases hq
    exact ⟨h1, h2, h3⟩
  · rintro ⟨h1, h2, h3⟩
    unfold toLowerCamel at h1
    unfold toUpperCamel at h2
    obtain ⟨a, b, c⟩ := p
    simp only at h1 h2 h3
    subst h3
    simp [newNamePolicies, h1, h2]

/-- C18: on a configuration whose names are not empty the builder returns; the
keys of the output `Groups` (of the output `Resources`) are exactly the pairs
made of the group keys (of the resource keys), with the private form, the public
form and an empty `Type`, each pair once; so the output has at most as many
entries as the configuration, and fewer when two distinct keys of a section have
the same pair. -/
theorem C18_output_keys_are_image (T : CaseTables) (cfg : policiesConfig)
    (hne : configNamesNonEmpty cfg) :
    ∃ out, convertConfigToTemplateData T cfg = some out ∧
      (∀ kn, kn ∈ out.Groups.map Prod.fst ↔ ∃ e ∈ cfg.Groups,
        toLowerCamel T e.1 = some kn.Private ∧ toUpperCamel T e.1 = some kn.Public ∧
          kn.Type_ = []) ∧
      (∀ kn, kn ∈ out.Resources.map Prod.fst ↔ ∃ e ∈ cfg.ResourceConfig,
        toLowerCamel T e.1 = some kn.Private ∧ toUpperCamel T e.1 = some kn.Public ∧
          kn.Type_ = []) ∧
      (out.Groups.map Prod.fst).Nodup ∧ (out.Resources.map Prod.fst).Nodup ∧
      out.Groups.length ≤ cfg.Groups.length ∧
      out.Resources.length ≤ cfg.ResourceConfig.length ∧
      (∀ e1 ∈ cfg.Groups, ∀ e2 ∈ cfg.Groups, e1.1 ≠ e2.1 →
        newNamePolicies T e1.1 = newNamePolicies T e2.1 →
        out.Groups.length < cfg.Groups.length) ∧
      (∀ e1 ∈ cfg.ResourceConfig, ∀ e2 ∈ cfg.ResourceConfig, e1.1 ≠ e2.1 →
        newNamePolicies T e1.1 = newNamePolicies T e2.1 →
        out.Resources.length < cfg.ResourceConfig.length) := by
  obtain ⟨g, r, hg, hr, hout⟩ := convert_of_namesNonEmpty T cfg hne
  obtain ⟨g1, g2, g3, _, g5⟩ := sectionLoop_keys T _ _ _ _ hg
  obtain ⟨r1, r2, r3, _, r5⟩ := sectionLoop_keys T _ _ _ _ hr
  have hsym : Symmetric (fun e1 e2 : GoString × List GoString =>
      newNamePolicies T e1.1 ≠ newNamePolicies T e2.1) := fun _ _ h => h.symm
  refine ⟨_, hout, fun kn => ?_, fun kn => ?_, g2 (by simp), r2 (by simp),
    by simpa using g3, by simpa using r3, ?_, ?_⟩
  · rw [g1 kn]
    simp only [List.map_nil, List.not_mem_nil, false_or, newNamePolicies_eq_some_iff]
  · rw [r1 kn]
    simp only [List.map_nil, List.not_mem_nil, false_or, newNamePolicies_eq_some_iff]
  · intro e1 he1 e2 he2 hne12 heq
    have := g5 (fun hp => hp.forall hsym he1 he2 (fun h => hne12 (by rw [h])) heq)
    simpa using this
  · intro e1 he1 e2 he2 hne12 heq
    have := r5 (fun hp => hp.forall hsym he1 he2 (fun h => hne12 (by rw [h])) heq)
    simpa using this

/-- C18, witness: the statement at a configuration with the resource keys
`book` and `Book`, which have the same pair: the output `Resources` has one
entry for the two keys. -/
theorem C18_output_keys_are_image_witness :
    configNamesNonEmpty collidingKeysConfig ∧
    newNamePolicies asciiOnlyTables "book".toList = some bookPair ∧
    newNamePolicies asciiOnlyTables "Book".toList = some bookPair ∧
    (∃ out, convertConfigToTemplateData asciiOnlyTables collidingKeysConfig = some out ∧
      out.Resources.length = 1 ∧ collidingKeysConfig.ResourceConfig.length = 2) ∧
    ∃ out, convertConfigToTemplateData asciiOnlyTables collidingKeysConfig = some out ∧
      (∀ kn, kn ∈ out.Groups.map Prod.fst ↔ ∃ e ∈ collidingKeysConfig.Groups,
        toLowerCamel asciiOnlyTables e.1 = some kn.Private ∧
          toUpperCamel asciiOnlyTables e.1 = some kn.Public ∧ kn.Type_ = []) ∧
      (∀ kn, kn ∈ out.Resources.map Prod.fst ↔ ∃ e ∈ collidingKeysConfig.ResourceConfig,
        toLowerCamel asciiOnlyTables e.1 = some kn.Private ∧
          toUpperCamel asciiOnlyTables e.1 = some kn.Public ∧ kn.Type_ = []) ∧
      (out.Groups.map Prod.fst).Nodup ∧ (out.Resources.map Prod.fst).Nodup ∧
      out.Groups.length ≤ collidingKeysConfig.Groups.length ∧
      out.Resources.length ≤ collidingKeysConfig.ResourceConfig.length ∧
      (∀ e1 ∈ collidingKeysConfig.Groups, ∀ e2 ∈ collidingKeysConfig.Groups, e1.1 ≠ e2.1 →
        newNamePolicies asciiOnlyTables e1.1 = newNamePolicies asciiOnlyTables e2.1 →
        out.Groups.length < collidingKeysConfig.Groups.length) ∧
      (∀ e1 ∈ collidingKeysConfig.ResourceConfig, ∀ e2 ∈ collidingKeysConfig.ResourceConfig,
        e1.1 ≠ e2.1 →
        newNamePolicies asciiOnlyTables e1.1 = newNamePolicies asciiOnlyTables e2.1 →
        out.Resources.length < collidingKeysConfig.ResourceConfig.length) :=
  ⟨by decide, rfl, rfl, ⟨_, rfl, rfl, rfl⟩,
    C18_output_keys_are_image asciiOnlyTables collidingKeysConfig (by decide)⟩

/-! ## C2: the type hint and the group keys -/

theorem mapIndex_of_mem_keys (m : List (namePolicies × List namePolicies)) (k : namePolicies)
    (h : k ∈ m.map Prod.fst) : ∃ l, mapIndex m k = some l ∧ (k, l) ∈ m := by
  induction m with
  | nil => cases h
  | cons e rest ih =>
    obtain ⟨k0, v0⟩ := e
    by_cases hk : k0 = k
    · subst hk
      exact ⟨v0, by simp [mapIndex], List.mem_cons_self _ _⟩
    · have hmem : k ∈ rest.map Prod.fst := by
        rw [List.map_cons] at h
        rcases List.mem_cons.mp h with h | h
        · exact absurd h.symm hk
        · exact h
      obtain ⟨l, hl, hin⟩ := ih hmem
      exact ⟨l, by simp [mapIndex, hk, hl], List.mem_cons_of_mem _ hin⟩

/-- C2: on a configuration whose names are not empty the builder returns, and
in its output: every resource key has an entry in `Resources` under its pair,
and the list of that entry is emitted from the actions of a resource with that
pair, each action `a` giving, at its place, the pair built from `a` whose
`Type` is `"string"` exactly when no group key has the public form of `a` and
empty exactly when some group key has it; when the resource keys are distinct
and no other key shares the pair of a key, that list is emitted from the key's
own actions; every entry of `Resources` is of this kind; the inner loop gives
the same pairs for every resource; and `isActionInGroup(a, groups)` is true
exactly when some group key has the public form of `a`. -/
theorem C2_type_hint_iff_no_group_key (T : CaseTables) (cfg : policiesConfig)
    (hne : configNamesNonEmpty cfg) :
    ∃ out, convertConfigToTemplateData T cfg = some out ∧
      (∀ e ∈ cfg.ResourceConfig, ∃ kn l,
        newNamePolicies T e.1 = some kn ∧ mapIndex out.Resources kn = some l ∧
        (kn, l) ∈ out.Resources ∧
        ∃ e2 ∈ cfg.ResourceConfig, newNamePolicies T e2.1 = some kn ∧
          List.Forall₂ (fun a p =>
            builtFromResourceAction T cfg.Groups a p ∧
            (p.Type_ = "string".toList ↔ ¬ matchesGroupKey T a cfg.Groups) ∧
            (p.Type_ = [] ↔ matchesGroupKey T a cfg.Groups)) e2.2 l) ∧
      ((cfg.ResourceConfig.map Prod.fst).Nodup → ∀ e ∈ cfg.ResourceConfig,
        (∀ e2 ∈ cfg.ResourceConfig, e2.1 ≠ e.1 →
          newNamePolicies T e2.1 ≠ newNamePolicies T e.1) →
        ∃ kn l, newNamePolicies T e.1 = some kn ∧ mapIndex out.Resources kn = some l ∧
          List.Forall₂ (fun a p =>
            builtFromResourceAction T cfg.Groups a p ∧
            (p.Type_ = "string".toList ↔ ¬ matchesGroupKey T a cfg.Groups) ∧
            (p.Type_ = [] ↔ matchesGroupKey T a cfg.Groups)) e.2 l) ∧
      (∀ x ∈ out.Resources, ∃ e ∈ cfg.ResourceConfig,
        newNamePolicies T e.1 = some x.1 ∧
        resourceNameActions T cfg.Groups [] e.2 = some x.2 ∧
        List.Forall₂ (fun a p =>
          builtFromResourceAction T cfg.Groups a p ∧
          (p.Type_ = "string".toList ↔ ¬ matchesGroupKey T a cfg.Groups) ∧
          (p.Type_ = [] ↔ matchesGroupKey T a cfg.Groups)) e.2 x.2) ∧
      (∀ e ∈ cfg.ResourceConfig, ∃ l,
        resourceNameActions T cfg.Groups [] e.2 = some l ∧
        List.Forall₂ (fun a p =>
          builtFromResourceAction T cfg.Groups a p ∧
          (p.Type_ = "string".toList ↔ ¬ matchesGroupKey T a cfg.Groups) ∧
          (p.Type_ = [] ↔ matchesGroupKey T a cfg.Groups)) e.2 l) ∧
      (∀ a : GoString, a ≠ [] → ∃ b, isActionInGroup T a cfg.Groups = some b ∧
        (b = true ↔ matchesGroupKey T a cfg.Groups)) := by
  have hgk : ∀ e ∈ cfg.Groups, e.1 ≠ [] := fun e he => (hne.1 e he).1
  have hrule : ∀ (a : GoString) (p : namePolicies), builtFromResourceAction T cfg.Groups a p →
      builtFromResourceAction T cfg.Groups a p ∧
      (p.Type_ = "string".toList ↔ ¬ matchesGroupKey T a cfg.Groups) ∧
      (p.Type_ = [] ↔ matchesGroupKey T a cfg.Groups) := fun a p h =>
    ⟨h, builtFromResourceAction_type T cfg.Groups hgk a p h⟩
  obtain ⟨g, r, _, hr, hout⟩ := convert_of_namesNonEmpty T cfg hne
  obtain ⟨r1, _⟩ := sectionLoop_keys T _ _ _ _ hr
  refine ⟨_, hout, ?_, ?_, ?_, ?_, fun a ha => isActionInGroup_iff T a ha cfg.Groups hgk⟩
  · intro e he
    obtain ⟨kn, hkn, _⟩ := newNamePolicies_of_ne_nil T e.1 (hne.2 e he).1
    have hkey : kn ∈ r.map Prod.fst := (r1 kn).mpr (Or.inr ⟨e, he, hkn⟩)
    obtain ⟨l, hl, hin⟩ := mapIndex_of_mem_keys r kn hkey
    obtain ⟨e2, he2, h1, _, hf⟩ := convert_resources_mem T cfg hne _ hout (kn, l) hin
    exact ⟨kn, l, hkn, hl, hin, e2, he2, h1, hf.imp hrule⟩
  · intro hnd e he hun
    obtain ⟨k, acts⟩ := e
    obtain ⟨kn, hkn, _⟩ := newNamePolicies_of_ne_nil T k (hne.2 _ he).1
    obtain ⟨l, hl, hf⟩ := resourceNameActions_spec T cfg.Groups hgk acts [] (hne.2 _ he).2
    rw [List.nil_append] at hl
    exact ⟨kn, l, hkn,
      sectionLoop_index_of_unshared T _ cfg.ResourceConfig hnd r hr k acts he hun kn hkn l hl,
      hf.imp hrule⟩
  · intro x hx
    obtain ⟨e, he, h1, h2, hf⟩ := convert_resources_mem T cfg hne _ hout x hx
    exact ⟨e, he, h1, h2, hf.imp hrule⟩
  · intro e he
    obtain ⟨l, hl, hf⟩ := resourceNameActions_spec T cfg.Groups hgk e.2 [] (hne.2 e he).2
    exact ⟨l, by simpa using hl, hf.imp hrule⟩

/-- C2, witness: the statement at the configuration of the first scenario,
whose output holds, under the pair of `book`, the pairs of `get`, `list` and
`publish`, each with the `Type` `"string"`. -/
theorem C2_type_hint_iff_no_group_key_witness :
    configNamesNonEmpty scenarioOne ∧
    (∃ out, convertConfigToTemplateData asciiOnlyTables scenarioOne = some out ∧
      mapIndex out.Resources bookPair =
        some [⟨"get".toList, "Get".toList, "string".toList⟩,
              ⟨"list".toList, "List".toList, "string".toList⟩,
              ⟨"publish".toList, "Publish".toList, "string".toList⟩]) ∧
    ∃ out, convertConfigToTemplateData asciiOnlyTables scenarioOne = some out ∧
      (∀ e ∈ scenarioOne.ResourceConfig, ∃ kn l,
        newNamePolicies asciiOnlyTables e.1 = some kn ∧
        mapIndex out.Resources kn = some l ∧ (kn, l) ∈ out.Resources ∧
        ∃ e2 ∈ scenarioOne.ResourceConfig, newNamePolicies asciiOnlyTables e2.1 = some kn ∧
          List.Forall₂ (fun a p =>
            builtFromResourceAction asciiOnlyTables scenarioOne.Groups a p ∧
            (p.Type_ = "string".toList ↔
              ¬ matchesGroupKey asciiOnlyTables a scenarioOne.Groups) ∧
            (p.Type_ = [] ↔ matchesGroupKey asciiOnlyTables a scenarioOne.Groups)) e2.2 l) ∧
      ((scenarioOne.ResourceConfig.map Prod.fst).Nodup → ∀ e ∈ scenarioOne.ResourceConfig,
        (∀ e2 ∈ scenarioOne.ResourceConfig, e2.1 ≠ e.1 →
          newNamePolicies asciiOnlyTables e2.1 ≠ newNamePolicies asciiOnlyTables e.1) →
        ∃ kn l, newNamePolicies asciiOnlyTables e.1 = some kn ∧
          mapIndex out.Resources kn = some l ∧
          List.Forall₂ (fun a p =>
            builtFromResourceAction asciiOnlyTables scenarioOne.Groups a p ∧
            (p.Type_ = "string".toList ↔
              ¬ matchesGroupKey asciiOnlyTables a scenarioOne.Groups) ∧
            (p.Type_ = [] ↔ matchesGroupKey asciiOnlyTables a scenarioOne.Groups)) e.2 l) ∧
      (∀ x ∈ out.Resources, ∃ e ∈ scenarioOne.ResourceConfig,
        newNamePolicies asciiOnlyTables e.1 = some x.1 ∧
        resourceNameActions asciiOnlyTables scenarioOne.Groups [] e.2 = some x.2 ∧
        List.Forall₂ (fun a p =>
          builtFromResourceAction asciiOnlyTables scenarioOne.Groups a p ∧
          (p.Type_ = "string".toList ↔
            ¬ matchesGroupKey asciiOnlyTables a scenarioOne.Groups) ∧
          (p.Type_ = [] ↔ matchesGroupKey asciiOnlyTables a scenarioOne.Groups)) e.2 x.2) ∧
      (∀ e ∈ scenarioOne.ResourceConfig, ∃ l,
        resourceNameActions asciiOnlyTables scenarioOne.Groups [] e.2 = some l ∧
        List.Forall₂ (fun a p =>
          builtFromResourceAction asciiOnlyTables scenarioOne.Groups a p ∧
          (p.Type_ = "string".toList ↔
            ¬ matchesGroupKey asciiOnlyTables a scenarioOne.Groups) ∧
          (p.Type_ = [] ↔ matchesGroupKey asciiOnlyTables a scenarioOne.Groups)) e.2 l) ∧
      (∀ a : GoString, a ≠ [] →
        ∃ b, isActionInGroup asciiOnlyTables a scenarioOne.Groups = some b ∧
          (b = true ↔ matchesGroupKey asciiOnlyTables a scenarioOne.Groups)) :=
  ⟨by decide, ⟨_, rfl, rfl⟩,
    C2_type_hint_iff_no_group_key asciiOnlyTables scenarioOne (by decide)⟩

end PoliciesGen
